import Mathlib

/-!
Verification development for the mcp-obsidian note-graph core
(`graph_index.py`, `graph_filter.py`, `graph_ranker.py`, `graph.py`,
`tools.py`).  The Python code is shallowly embedded: dictionaries become
association lists with Python assignment semantics, Python sets become
insertion-ordered duplicate-free lists (only membership is ever observed),
floats become exact rationals (reals where `math.exp` is involved), and the
caller-supplied `file_getter` becomes an explicit function argument.
Strings are modelled over their character lists; Python text functions
(`lower`, `strip`, `fnmatch`, regex scans) are implemented directly on the
ASCII fragment the vault data lives in.
-/

/-- Association list standing for a Python `dict` (insertion ordered). -/
abbrev Dict (α : Type) := List (String × α)

/-- First-match lookup, i.e. Python `d[k]` / `d.get(k)`. -/
def lookupStr {α : Type} : Dict α → String → Option α
  | [], _ => none
  | (k', v) :: rest, k => if k' = k then some v else lookupStr rest k

/-- Python `d.get(k, default)`. -/
def dictGetD {α : Type} (d : Dict α) (k : String) (dflt : α) : α :=
  (lookupStr d k).getD dflt

/-- Python `d[k] = v`: update the value in place if the key exists, otherwise
append the new binding (dicts preserve first-insertion order). -/
def dictInsert {α : Type} : Dict α → String → α → Dict α
  | [], k, v => [(k, v)]
  | (k', v') :: rest, k, v =>
    if k' = k then (k', v) :: rest else (k', v') :: dictInsert rest k v

/-- The key list of a dict, i.e. Python `list(d.keys())`. -/
def dictKeys {α : Type} (d : Dict α) : List String := d.map Prod.fst

/-- Sum of the values of a rational-valued dict, `sum(d.values())`. -/
def sumValues (d : Dict ℚ) : ℚ := (d.map Prod.snd).sum

/-- Python `set.add` on the list model of a set: append if absent. -/
def setAdd (l : List String) (x : String) : List String :=
  if x ∈ l then l else l ++ [x]

/-- Python `if k not in d: d[k] = set()` (with `[]` as the empty set). -/
def ensureKey (d : Dict (List String)) (k : String) : Dict (List String) :=
  if (lookupStr d k).isSome then d else dictInsert d k []

/-- Python `d[k].add x` for a key that is present (the build ensures it). -/
def addToSet (d : Dict (List String)) (k x : String) : Dict (List String) :=
  dictInsert d k (setAdd (dictGetD d k []) x)

/-- Whitespace recognised by Python `str.strip()` (ASCII fragment). -/
def isPySpace (c : Char) : Bool :=
  c = ' ' || c = '\t' || c = '\n' || c = '\r' || c = '\x0b' || c = '\x0c'

/-- Drop characters satisfying `p` from both ends of a character list. -/
def stripWhile (p : Char → Bool) (l : List Char) : List Char :=
  ((l.dropWhile p).reverse.dropWhile p).reverse

/-- Python `str.strip()`. -/
def pyStrip (s : String) : String := String.mk (stripWhile isPySpace s.data)

/-- Python `str.strip(ch)` for a single strip character (strips every copy of
that character from both ends). -/
def pyStripChar (ch : Char) (s : String) : String :=
  String.mk (stripWhile (fun c => c = ch) s.data)

/-- Python `str.endswith` (kernel-reducible form). -/
def strEndsWith (s suffix : String) : Bool := suffix.data.isSuffixOf s.data

/-- Python `str.startswith` (kernel-reducible form). -/
def strStartsWith (s pre : String) : Bool := pre.data.isPrefixOf s.data

/-- Drop the last `n` characters, Python `s[:-n]` for positive `n`. -/
def strDropRight (s : String) (n : ℕ) : String :=
  String.mk (s.data.take (s.data.length - n))

/-- Python `str.split(sep)` for a one-character separator (keeps empty
pieces, as Python does). -/
def splitOnChar (c : Char) : List Char → List (List Char)
  | [] => [[]]
  | x :: rest =>
    let r := splitOnChar c rest
    if x = c then [] :: r
    else
      match r with
      | h :: t => (x :: h) :: t
      | [] => [[x]]

/-- Split at every character satisfying `p` (empty pieces kept). -/
def splitOnPred (p : Char → Bool) : List Char → List (List Char)
  | [] => [[]]
  | x :: rest =>
    let r := splitOnPred p rest
    if p x then [] :: r
    else
      match r with
      | h :: t => (x :: h) :: t
      | [] => [[x]]

/-- Join character lists with a separator, Python `sep.join`. -/
def joinList (sep : List Char) : List (List Char) → List Char
  | [] => []
  | [x] => x
  | x :: rest => x ++ sep ++ joinList sep rest

/-- ASCII lower-casing of one character, modelling Python `str.lower()` on
the character repertoire the vault uses. -/
def pyLowerChar (c : Char) : Char :=
  if 65 ≤ c.toNat ∧ c.toNat ≤ 90 then Char.ofNat (c.toNat + 32) else c

/-- Python `str.lower()` (ASCII model). -/
def pyLower (s : String) : String := String.mk (s.data.map pyLowerChar)

/-- Replace every occurrence of the character `a` by `b`, modelling the
single-character uses of Python `str.replace` in the source. -/
def replaceChar (a b : Char) (s : String) : String :=
  String.mk (s.data.map fun c => if c = a then b else c)

/-- Last path component as computed by `pathlib.Path(s).name`: empty and
single-dot components are ignored, the last remaining component is returned
(empty string when there is none). -/
def pathName (s : String) : String :=
  (((((splitOnChar '/' s.data).map String.mk).filter
    fun c => c ≠ "" && c ≠ ".").getLast?).getD "")

/-- Stem of `pathlib.Path(s)`: the name with its final extension removed.
The dot must be neither the first nor the last character of the name. -/
def pathStem (s : String) : String :=
  let n := (pathName s).data
  match (n.reverse.takeWhile fun c => c ≠ '.').length, n.length with
  | restLen, len =>
    if restLen + 1 < len && restLen ≠ 0 then String.mk (n.take (len - restLen - 1))
    else String.mk n

/-- Python `str.split()` with no arguments: split on whitespace runs,
dropping empty pieces. -/
def pyWords (s : String) : List String :=
  (((splitOnPred isPySpace s.data)).filter fun w => w ≠ []).map String.mk

/-- First index (if any) at which `pat` occurs as a sublist of `l` at or
after position `start`, scanning left to right like `re` searching. -/
def findSub (l pat : List Char) (start : ℕ) : Option ℕ :=
  let rec go : List Char → ℕ → Option ℕ
    | [], i => if pat = [] then some i else none
    | c :: rest, i => if pat.isPrefixOf (c :: rest) then some i else go rest (i + 1)
  go (l.drop start) 0 |>.map (· + start)

/-- Membership test for a character, Python `ch in s`. -/
def charIn (c : Char) (s : String) : Bool := s.data.contains c

/-! ### `fnmatch` (Python glob matching, POSIX case-sensitive model) -/

/-- Scan a bracket-class body up to the closing bracket, returning the body
and the remaining pattern; `none` when the class is never closed. -/
def splitAtClose : List Char → Option (List Char × List Char)
  | [] => none
  | c :: t =>
    if c = ']' then some ([], t)
    else (splitAtClose t).map fun p => (c :: p.1, p.2)

/-- Parse the inside of a `[...]` glob class: optional leading `!` negation,
and a `]` directly after the opening (or the negation) is a literal member. -/
def globBracket (cs : List Char) : Option (Bool × List Char × List Char) :=
  let neg : Bool := cs.head? = some '!'
  let cs1 := if cs.head? = some '!' then cs.tail else cs
  let litFirst : Bool := cs1.head? = some ']'
  let cs2 := if litFirst then cs1.tail else cs1
  (splitAtClose cs2).map fun p =>
    (neg, (if litFirst then [']'] else []) ++ p.1, p.2)

/-- Does character `c` belong to a glob class body (with `a-b` ranges)? -/
def classMatch : List Char → Char → Bool
  | [], _ => false
  | a :: '-' :: b :: rest, c => (a ≤ c && c ≤ b) || classMatch rest c
  | a :: rest, c => a = c || classMatch rest c

/-- Glob matcher, modelling `fnmatch.fnmatch(name, pattern)` on POSIX:
`*` matches any run, `?` one character, a bracket class (optionally
negated) one member character, and an unclosed `[` is a literal.  The
recursion runs on explicit fuel so that it evaluates by kernel reduction;
the sum of the two list lengths strictly decreases at every recursive
call, so the initial fuel below is never exhausted. -/
def globMatchF : ℕ → List Char → List Char → Bool
  | 0, _, _ => false
  | fuel + 1, pattern, name =>
    match pattern, name with
    | [], n => n.isEmpty
    | '*' :: ps, n =>
      globMatchF fuel ps n ||
        (match n with
         | [] => false
         | _ :: nt => globMatchF fuel ('*' :: ps) nt)
    | '?' :: ps, n =>
      (match n with
       | [] => false
       | _ :: nt => globMatchF fuel ps nt)
    | '[' :: ps, n =>
      (match globBracket ps with
       | some (neg, body, rest) =>
         (match n with
          | [] => false
          | c :: nt => (neg != classMatch body c) && globMatchF fuel rest nt)
       | none =>
         match n with
         | [] => false
         | c :: nt => c = '[' && globMatchF fuel ps nt)
    | p :: ps, n =>
      (match n with
       | [] => false
       | c :: nt => c = p && globMatchF fuel ps nt)

/-- Entry point of the glob matcher with adequate fuel. -/
def globMatch (pattern name : List Char) : Bool :=
  globMatchF (pattern.length + name.length + 1) pattern name

/-- Python `fnmatch.fnmatch(path, pattern)`. -/
def fnmatchPy (name pattern : String) : Bool := globMatch pattern.data name.data

/-- Source `GraphIndex._should_index`: a path is indexed when no exclusion
pattern matches it. -/
def should_index (exclude_paths : List String) (path : String) : Bool :=
  exclude_paths.all fun pattern => ¬ fnmatchPy path pattern

/-! ### `LinkExtractor.extract_wikilinks` (graph.py)

Scanner for the regex `\[\[([^\]|]+)(?:\|([^\]]+))?\]\]` used with
`finditer`: leftmost non-overlapping matches; both character groups are
greedy and, because neither can contain `]`, matching is deterministic
(no backtracking can succeed where the maximal munch fails). -/

/-- Try to match the wikilink body starting right after `[[`; returns the
two capture groups and the remaining text after the closing `]]`. -/
def wikilinkTryMatch (rest : List Char) :
    Option (List Char × Option (List Char) × List Char) :=
  let g1 := rest.takeWhile fun c => c ≠ ']' && c ≠ '|'
  if g1 = [] then none
  else
    let r1 := rest.drop g1.length
    if r1.take 1 = ['|'] then
      let r2 := r1.drop 1
      let g2 := r2.takeWhile fun c => c ≠ ']'
      if g2 = [] then none
      else if (r2.drop g2.length).take 2 = [']', ']'] then
        some (g1, some g2, r2.drop (g2.length + 2))
      else none
    else if r1.take 2 = [']', ']'] then some (g1, none, r1.drop 2)
    else none

/-- Post-process one regex match exactly as the Python loop body does:
strip the target, cut a `#heading` anchor, strip again; the display text
defaults to the processed target. -/
def wikilinkEntry (g1 : List Char) (g2 : Option (List Char)) (pos : ℕ) :
    String × String × ℕ :=
  let t1 := pyStrip (String.mk g1)
  let t2 := if charIn '#' t1 then String.mk (t1.data.takeWhile fun c => c ≠ '#') else t1
  let target := pyStrip t2
  let ltext := match g2 with | some g => String.mk g | none => target
  (target, ltext, pos)

/-- Left-to-right scan of `finditer`, continuing after each match and
advancing one character after a failed `[[` attempt.  Fuel makes the
recursion structural (each call strictly shrinks the text, so the fuel
below is never exhausted). -/
def scanWikilinksF : ℕ → List Char → ℕ → List (String × String × ℕ)
  | 0, _, _ => []
  | fuel + 1, l, i =>
    match l with
    | '[' :: '[' :: rest =>
      (match wikilinkTryMatch rest with
       | some (g1, g2, r3) =>
         wikilinkEntry g1 g2 i ::
           scanWikilinksF fuel r3 (i + 2 + (rest.length - r3.length))
       | none => scanWikilinksF fuel ('[' :: rest) (i + 1))
    | _ :: rest => scanWikilinksF fuel rest (i + 1)
    | [] => []

/-- The scan with adequate fuel. -/
def scanWikilinks (l : List Char) (i : ℕ) : List (String × String × ℕ) :=
  scanWikilinksF (l.length + 1) l i

/-- Source `LinkExtractor.extract_wikilinks`: list of
`(target, link_text, position)` triples. -/
def extract_wikilinks (content : String) : List (String × String × ℕ) :=
  scanWikilinks content.data 0

/-! ### Name table and link resolution (graph_index.py) -/

/-- One step of `GraphIndex._build_name_to_path_map`: register the four
lookup keys for a candidate path. -/
def registerFile (m : Dict String) (file_path : String) : Dict String :=
  let normalized0 := pyLower file_path
  let normalized :=
    if strEndsWith normalized0 ".md" then strDropRight normalized0 3 else normalized0
  let filename := pathName normalized
  dictInsert
    (dictInsert
      (dictInsert (dictInsert m normalized file_path) filename file_path)
      (replaceChar ' ' '_' filename) file_path)
    (replaceChar '_' ' ' filename) file_path

/-- Source `GraphIndex._build_name_to_path_map`. -/
def build_name_to_path_map (files : List String) : Dict String :=
  files.foldl registerFile []

/-- Source `GraphIndex._resolve_link`: resolve a raw wikilink target to a
file path through the name table, or `none` (link dropped). -/
def resolve_link (target : String) (name_to_path : Dict String) : Option String :=
  if target = "" then none
  else
    let normalized0 := pyStrip (pyLower target)
    let normalized :=
      if strEndsWith normalized0 ".md" then strDropRight normalized0 3 else normalized0
    match lookupStr name_to_path normalized with
    | some p => some p
    | none =>
      let filename := pathName normalized
      match lookupStr name_to_path filename with
      | some p => some p
      | none =>
        match lookupStr name_to_path (replaceChar ' ' '_' filename) with
        | some p => some p
        | none =>
          match lookupStr name_to_path (replaceChar '_' ' ' filename) with
          | some p => some p
          | none => none

/-! ### Metadata extraction (`GraphIndex._extract_metadata` and helpers) -/

/-- Values reachable in the metadata/frontmatter dictionaries: the mini-YAML
parser produces strings and string lists; filter configurations may also
carry booleans and integers from JSON arguments. -/
inductive PyVal where
  | str (s : String)
  | strList (l : List String)
  | bool (b : Bool)
  | int (n : ℤ)
deriving DecidableEq

/-- Python truthiness test (`if not value`) for the embedded values. -/
def PyVal.falsy : PyVal → Bool
  | .str s => s = ""
  | .strList l => l = []
  | .bool b => !b
  | .int n => n = 0

/-- The apostrophe character, kept as a named constant. -/
def squote : Char := Char.ofNat 39

/-- The apostrophe as a one-character string. -/
def squoteStr : String := String.mk [squote]

/-- Python `repr` of a string as used by `str(list)`: single-quoted unless
the text itself contains a single quote (control characters are out of the
modelled repertoire). -/
def pyReprStr (s : String) : String :=
  if ¬ charIn squote s then squoteStr ++ s ++ squoteStr
  else if ¬ charIn '"' s then "\"" ++ s ++ "\""
  else
    squoteStr ++
      String.mk (s.data.foldr
        (fun c acc => if c = squote then '\\' :: c :: acc else c :: acc) []) ++
      squoteStr

/-- Python `str()` of an embedded value (`str(list)` uses element reprs). -/
def pyStr : PyVal → String
  | .str s => s
  | .strList l => "[" ++ String.mk (joinList ", ".data ((l.map pyReprStr).map String.data)) ++ "]"
  | .bool b => if b then "True" else "False"
  | .int n => toString n

/-- Python `s[1:-1]`. -/
def slice1m1 (s : String) : String := String.mk ((s.data.drop 1).dropLast)

/-- Python `str.lstrip(ch)` for a single character. -/
def lstripChar (ch : Char) (s : String) : String :=
  String.mk (s.data.dropWhile fun c => c = ch)

/-- Does the pattern `\d{4}-\d{2}-\d{2}` match at the head of the list? -/
def dateAt : List Char → Bool
  | y1 :: y2 :: y3 :: y4 :: h1 :: m1 :: m2 :: h2 :: d1 :: d2 :: _ =>
    y1.isDigit && y2.isDigit && y3.isDigit && y4.isDigit && h1 = '-' &&
      m1.isDigit && m2.isDigit && h2 = '-' && d1.isDigit && d2.isDigit
  | _ => false

/-- Leftmost `re.search(r'(\d{4}-\d{2}-\d{2})', ...)` match. -/
def findDateScan : List Char → Option String
  | [] => none
  | c :: rest =>
    if dateAt (c :: rest) then some (String.mk ((c :: rest).take 10))
    else findDateScan rest

/-- Source `GraphIndex._clean_date`: normalise a frontmatter date value to
`YYYY-MM-DD` when such a substring exists, else keep the cleaned text. -/
def clean_date (date_value : PyVal) : Option String :=
  if date_value.falsy then none
  else
    let date_str := pyStrip (pyStr date_value)
    let date_str := pyStripChar squote (pyStripChar '"' date_str)
    match findDateScan date_str.data with
    | some d => some d
    | none => if date_str = "" then none else some date_str

/-- Recognise the front-matter block `^---\n(.*?)\n---` (lazy body): the
body together with the text after the match. -/
def frontmatterSplit (content : String) : Option (String × String) :=
  let cs := content.data
  if cs.take 4 = ['-', '-', '-', '\n'] then
    match findSub cs ['\n', '-', '-', '-'] 4 with
    | some k => some (String.mk ((cs.drop 4).take (k - 4)), String.mk (cs.drop (k + 4)))
    | none => none
  else none

/-- Strip one matching pair of surrounding quotes, as the mini-YAML parser
does with `value[1:-1]`. -/
def stripOneQuotePair (s : String) : String :=
  if strStartsWith s "\"" && strEndsWith s "\"" then slice1m1 s
  else if strStartsWith s squoteStr && strEndsWith s squoteStr then slice1m1 s
  else s

/-- One line of `GraphIndex._parse_simple_yaml`. -/
def parseYamlLine (result : Dict PyVal) (line0 : String) : Dict PyVal :=
  let line := pyStrip line0
  if charIn ':' line && ¬ strStartsWith line "#" then
    let key := pyStrip (String.mk (line.data.takeWhile fun c => c ≠ ':'))
    let value0 := pyStrip (String.mk ((line.data.dropWhile fun c => c ≠ ':').drop 1))
    let value1 := stripOneQuotePair value0
    if strStartsWith value1 "[" && strEndsWith value1 "]" then
      let items := ((((splitOnChar ',' (slice1m1 value1).data).map String.mk).filter
          fun v => pyStrip v ≠ "").map
        fun v => pyStripChar squote (pyStripChar '"' (pyStrip v)))
      dictInsert result key (.strList items)
    else dictInsert result key (.str value1)
  else result

/-- Source `GraphIndex._parse_simple_yaml`. -/
def parse_simple_yaml (yaml_str : String) : Dict PyVal :=
  ((splitOnChar '\n' yaml_str.data).map String.mk).foldl parseYamlLine []

/-- Characters of the inline-tag class (word characters, slash, dash;
ASCII model of the regex word class). -/
def isTagChar (c : Char) : Bool := c.isAlphanum || c = '_' || c = '/' || c = '-'

/-- Non-overlapping `findall` scan for a hash followed by a nonempty run of
tag characters (the capture group is the run). -/
def tagScanF : ℕ → List Char → List String
  | 0, _ => []
  | fuel + 1, l =>
    match l with
    | [] => []
    | '#' :: rest =>
      let run := rest.takeWhile isTagChar
      if run = [] then tagScanF fuel rest
      else String.mk run :: tagScanF fuel (rest.drop run.length)
    | _ :: rest => tagScanF fuel rest

/-- The tag scan with adequate fuel (every call shrinks the text). -/
def tagScan (l : List Char) : List String := tagScanF (l.length + 1) l

/-- Split a frontmatter `tags` string at `[,\s]+` runs; empty pieces are
filtered by the caller exactly as in the source comprehension. -/
def splitFmTags (s : String) : List String :=
  (s.data.splitOnP fun c => c = ',' || isPySpace c).map String.mk

/-- Tags contributed by the frontmatter `tags` field. -/
def fmTagsOf (fm : Dict PyVal) : List String :=
  match lookupStr fm "tags" with
  | some (.strList l) => l
  | some (.str s) =>
    ((splitFmTags s).filter fun t => pyStrip t ≠ "").map
      fun t => lstripChar '#' (pyStrip t)
  | some _ => []
  | none => []

/-- Deduplicate preserving first occurrence; models `list(set(...))`, whose
iteration order is unspecified in Python — no claim observes tag order. -/
def dedupList (l : List String) : List String :=
  l.foldl (fun acc x => if x ∈ acc then acc else acc ++ [x]) []

/-- Greedy-with-backtracking match of `\s+(.+)$` right after a line-initial
`#`, replicating `re` semantics including the end-of-string backtrack. -/
def headingTry (rest : List Char) : Option (List Char) :=
  let w := rest.takeWhile isPySpace
  if w = [] then none
  else if rest.drop w.length ≠ [] then
    some ((rest.drop w.length).takeWhile fun c => c ≠ '\n')
  else
    let rec go : ℕ → Option (List Char)
      | 0 => none
      | j + 1 =>
        if j = 0 then none
        else
          match w[j]? with
          | some c =>
            if c ≠ '\n' then some ((w.drop j).takeWhile fun c2 => c2 ≠ '\n')
            else go j
          | none => go j
    go w.length

/-- Multiline search for `^#\s+(.+)$` (first hit), as the title extractor
runs it. -/
def headingScan : List Char → Bool → Option String
  | [], _ => none
  | c :: rest, atStart =>
    if atStart && c = '#' then
      match headingTry rest with
      | some g => some (String.mk g)
      | none => headingScan rest (c = '\n')
    else headingScan rest (c = '\n')

/-- Cached per-note metadata record.  A value of `none` in `title` or
`word_count` only occurs in `Metadata.empty`, which stands for the plain
`{}` that `get_metadata` returns for unknown paths (every consumer reads
the dictionary through `.get` with a default). -/
structure Metadata where
  tags : List String
  frontmatter : Dict PyVal
  created : Option String
  modified : Option String
  title : Option String
  word_count : Option ℕ
deriving DecidableEq

/-- The empty dictionary `{}` as a metadata view. -/
def Metadata.empty : Metadata := ⟨[], [], none, none, none, none⟩

/-- First frontmatter value found under any of the alias keys. -/
def firstFmKey (fm : Dict PyVal) : List String → Option PyVal
  | [] => none
  | k :: rest =>
    match lookupStr fm k with
    | some v => some v
    | none => firstFmKey fm rest

/-- Source `GraphIndex._extract_metadata`. -/
def extract_metadata (file_path content : String) : Metadata :=
  let baseTitle := replaceChar '_' ' ' (pathStem file_path)
  let wc := (pyWords content).length
  let fmSplit := frontmatterSplit content
  let fm := match fmSplit with | some (y, _) => parse_simple_yaml y | none => []
  let created := (firstFmKey fm ["created", "date", "dateCreated"]).bind clean_date
  let modified := (firstFmKey fm ["modified", "updated", "dateModified"]).bind clean_date
  let fmTags := fmTagsOf fm
  let contentAfterFm := match fmSplit with | some (_, rest) => rest | none => content
  let inlineTags := tagScan contentAfterFm.data
  let tags := dedupList (fmTags ++ inlineTags)
  let title :=
    match headingScan content.data true with
    | some g => pyStrip g
    | none => baseTitle
  ⟨tags, fm, created, modified, some title, some wc⟩

/-! ### `GraphIndex` state, build and PageRank (graph_index.py) -/

/-- Result of one `file_getter` call.  `ok` is a string payload; `notStr`
models a non-string return (the build skips the file); `exc` models an
`Exception` raised by the getter (caught by the per-file handler); `fatal`
models a `BaseException`-level failure (e.g. `KeyboardInterrupt`), which
the per-file `except Exception` handler does not catch, so it aborts the
whole build.  The getter is the only failure source the surrounding code
can inject (spec section 5). -/
inductive Fetch where
  | ok (content : String)
  | notStr
  | exc
  | fatal
deriving DecidableEq

/-- The mutable fields of a `GraphIndex` object (the `file_getter` callback
is passed explicitly to `build`). -/
structure GraphIndexState where
  adjacency : Dict (List String)
  reverse_adj : Dict (List String)
  pagerank_scores : Dict ℚ
  metadata_cache : Dict Metadata
  exclude_paths : List String
  all_files : List String
  built : Bool
deriving DecidableEq

/-- A freshly constructed `GraphIndex(file_getter)`. -/
def initIndex : GraphIndexState :=
  ⟨[], [], [], [], [], [], false⟩

/-- Source `GraphIndex.set_exclude_paths`. -/
def set_exclude_paths (st : GraphIndexState) (patterns : List String) : GraphIndexState :=
  { st with exclude_paths := patterns }

/-- Handling of one extracted wikilink inside the per-file loop of
`build`: resolve, drop unresolved or self targets, otherwise add the edge
to both adjacency views. -/
def processLink (nm : Dict String) (file_path : String) (st : GraphIndexState)
    (target : String) : GraphIndexState :=
  match resolve_link target nm with
  | none => st
  | some target_path =>
    if target_path = "" then st
    else if target_path = file_path then st
    else
      { st with
        adjacency := addToSet st.adjacency file_path target_path,
        reverse_adj := addToSet (ensureKey st.reverse_adj target_path) target_path file_path }

/-- One iteration of the per-file loop of `build`.  The boolean is true
when an uncatchable failure aborted the build. -/
def processFile (getter : String → Fetch) (nm : Dict String)
    (st : GraphIndexState) (file_path : String) : GraphIndexState × Bool :=
  match getter file_path with
  | .fatal => (st, true)
  | .exc => (st, false)
  | .notStr => (st, false)
  | .ok content =>
    let st := { st with adjacency := ensureKey st.adjacency file_path }
    let st := { st with reverse_adj := ensureKey st.reverse_adj file_path }
    let st :=
      { st with
        metadata_cache :=
          dictInsert st.metadata_cache file_path (extract_metadata file_path content) }
    let wl := extract_wikilinks content
    (wl.foldl (fun s t => processLink nm file_path s t.1) st, false)

/-- Folding the per-file loop over the filtered file list, stopping at the
first uncatchable failure. -/
def buildFiles (getter : String → Fetch) (nm : Dict String) :
    GraphIndexState → List String → GraphIndexState × Bool
  | st, [] => (st, false)
  | st, fp :: rest =>
    match processFile getter nm st fp with
    | (st1, true) => (st1, true)
    | (st1, false) => buildFiles getter nm st1 rest

/-- Python-loop accumulation of `rank_sum` for one node. -/
def rank_sum_src (adjacency : Dict (List String)) (scores : Dict ℚ)
    (backlinks : List String) : ℚ :=
  backlinks.foldl
    (fun acc src =>
      let out_degree := (dictGetD adjacency src []).length
      if 0 < out_degree then acc + dictGetD scores src 0 / (out_degree : ℚ) else acc)
    0

/-- One synchronous power-iteration step over the node list. -/
def pagerank_iter (adjacency reverse_adj : Dict (List String))
    (nodes : List String) (alpha : ℚ) (n : ℕ) (scores : Dict ℚ) : Dict ℚ :=
  nodes.map fun node =>
    (node,
      (1 - alpha) / (n : ℚ) +
        alpha * rank_sum_src adjacency scores (dictGetD reverse_adj node []))

/-- Total absolute change between two score tables over the node list. -/
def pagerank_l1diff (nodes : List String) (new_scores scores : Dict ℚ) : ℚ :=
  (nodes.map fun node => |dictGetD new_scores node 0 - dictGetD scores node 0|).sum

/-- The `for iteration in range(max_iter)` loop: scores are replaced before
the convergence test, and the loop stops early when the change is below
tolerance. -/
def pagerank_loop (adjacency reverse_adj : Dict (List String))
    (nodes : List String) (alpha tol : ℚ) (n : ℕ) :
    ℕ → Dict ℚ → Dict ℚ
  | 0, scores => scores
  | fuel + 1, scores =>
    let new_scores := pagerank_iter adjacency reverse_adj nodes alpha n scores
    let diff := pagerank_l1diff nodes new_scores scores
    if diff < tol then new_scores
    else pagerank_loop adjacency reverse_adj nodes alpha tol n fuel new_scores

/-- Source `GraphIndex.compute_pagerank` (as a function of the two
adjacency views; floats are modelled exactly over the rationals). -/
def compute_pagerank (adjacency reverse_adj : Dict (List String))
    (alpha : ℚ) (max_iter : ℕ) (tol : ℚ) : Dict ℚ :=
  let nodes := dictKeys adjacency
  let n := nodes.length
  if n = 0 then []
  else
    pagerank_loop adjacency reverse_adj nodes alpha tol n max_iter
      (nodes.map fun node => (node, 1 / (n : ℚ)))

/-- `compute_pagerank()` with its default arguments
(`alpha=0.85`, `max_iter=100`, `tol=1e-6`). -/
def compute_pagerank_default (adjacency reverse_adj : Dict (List String)) : Dict ℚ :=
  compute_pagerank adjacency reverse_adj (85 / 100) 100 (1 / 1000000)

/-- Source `GraphIndex.build`.  The returned boolean is true when the build
was aborted by an uncatchable failure; the state is whatever the object
holds at that point (the maps were already reset in place). -/
def build (st : GraphIndexState) (all_files : List String)
    (getter : String → Fetch) : GraphIndexState × Bool :=
  let st :=
    { st with
      adjacency := [], reverse_adj := [], pagerank_scores := [],
      metadata_cache := [], all_files := all_files }
  let md_files := all_files.filter fun f =>
    strEndsWith f ".md" && should_index st.exclude_paths f
  let nm := build_name_to_path_map md_files
  match buildFiles getter nm st md_files with
  | (st1, true) => (st1, true)
  | (st1, false) =>
    ({ st1 with
       pagerank_scores := compute_pagerank_default st1.adjacency st1.reverse_adj,
       built := true }, false)

/-- Source `GraphIndex.get_backlinks` (`list(set)` returns the members). -/
def get_backlinks (st : GraphIndexState) (path : String) : List String :=
  dictGetD st.reverse_adj path []

/-- Source `GraphIndex.get_forward_links`. -/
def get_forward_links (st : GraphIndexState) (path : String) : List String :=
  dictGetD st.adjacency path []

/-- Source `GraphIndex.get_pagerank`. -/
def get_pagerank (st : GraphIndexState) (path : String) : ℚ :=
  dictGetD st.pagerank_scores path 0

/-- Source `GraphIndex.get_metadata` (`{}` is `Metadata.empty`). -/
def get_metadata (st : GraphIndexState) (path : String) : Metadata :=
  dictGetD st.metadata_cache path Metadata.empty

/-- Source module-level `get_graph_index`: the singleton is replaced by a
fresh instance before `build` runs, so the pair returned is the new value
of the global together with the abort flag of the build (when the build
aborts, the exception propagates to the caller with its own message). -/
def get_graph_index (globalIdx : Option GraphIndexState)
    (getter : String → Fetch) (all_files : List String)
    (exclude_paths : Option (List String)) (force_rebuild : Bool) :
    Option GraphIndexState × Bool :=
  if globalIdx.isNone || force_rebuild then
    let st0 := initIndex
    let st0 :=
      match exclude_paths with
      | some ps => if ps = [] then st0 else set_exclude_paths st0 ps
      | none => st0
    let (st1, aborted) := build st0 all_files getter
    (some st1, aborted)
  else (globalIdx, false)

/-! ### `GraphFilter` (graph_filter.py) -/

/-- Python `datetime` restricted to the fields `strptime` fills here. -/
structure PyDateTime where
  year : ℕ
  month : ℕ
  day : ℕ
  hour : ℕ
  minute : ℕ
  second : ℕ
deriving DecidableEq

/-- Python `datetime` comparison (lexicographic). -/
def PyDateTime.lt (a b : PyDateTime) : Bool :=
  if a.year ≠ b.year then decide (a.year < b.year)
  else if a.month ≠ b.month then decide (a.month < b.month)
  else if a.day ≠ b.day then decide (a.day < b.day)
  else if a.hour ≠ b.hour then decide (a.hour < b.hour)
  else if a.minute ≠ b.minute then decide (a.minute < b.minute)
  else decide (a.second < b.second)

/-- Gregorian leap-year rule, as `datetime` validates dates. -/
def isLeapYear (y : ℕ) : Bool := (y % 4 = 0 && y % 100 ≠ 0) || y % 400 = 0

/-- Days in a month, as `datetime` validates dates. -/
def daysInMonth (y m : ℕ) : ℕ :=
  if m = 2 then (if isLeapYear y then 29 else 28)
  else if m = 4 || m = 6 || m = 9 || m = 11 then 30
  else 31

/-- Construct a `datetime` after `strptime`, applying the constructor
validation (year at least 1, day within the month). -/
def mkPyDateTime (y m d hh mm ss : ℕ) : Option PyDateTime :=
  if 1 ≤ y && 1 ≤ m && m ≤ 12 && 1 ≤ d && d ≤ daysInMonth y m then
    some ⟨y, m, d, hh, mm, ss⟩
  else none

/-- Numeric value of a digit character. -/
def digitVal (c : Char) : ℕ := c.toNat - 48

/-- Exactly four digits, the `strptime` year field. -/
def parse4Digits : List Char → Option (ℕ × List Char)
  | a :: b :: c :: d :: rest =>
    if a.isDigit && b.isDigit && c.isDigit && d.isDigit then
      some (digitVal a * 1000 + digitVal b * 100 + digitVal c * 10 + digitVal d, rest)
    else none
  | _ => none

/-- The `strptime` month field: one or two digits, values 1 to 12, longest
alternative first as in the compiled pattern. -/
def parseMonth : List Char → Option (ℕ × List Char)
  | [] => none
  | [a] => if '1' ≤ a && a ≤ '9' then some (digitVal a, []) else none
  | a :: b :: rest =>
    if a = '1' && ('0' ≤ b && b ≤ '2') then some (10 + digitVal b, rest)
    else if a = '0' && ('1' ≤ b && b ≤ '9') then some (digitVal b, rest)
    else if '1' ≤ a && a ≤ '9' then some (digitVal a, b :: rest)
    else none

/-- The `strptime` day field: one or two digits, values 1 to 31. -/
def parseDay : List Char → Option (ℕ × List Char)
  | [] => none
  | [a] => if '1' ≤ a && a ≤ '9' then some (digitVal a, []) else none
  | a :: b :: rest =>
    if a = '3' && (b = '0' || b = '1') then some (30 + digitVal b, rest)
    else if (a = '1' || a = '2') && b.isDigit then
      some (digitVal a * 10 + digitVal b, rest)
    else if a = '0' && ('1' ≤ b && b ≤ '9') then some (digitVal b, rest)
    else if '1' ≤ a && a ≤ '9' then some (digitVal a, b :: rest)
    else none

/-- The `strptime` hour field: one or two digits, values 0 to 23. -/
def parseHour : List Char → Option (ℕ × List Char)
  | [] => none
  | [a] => if a.isDigit then some (digitVal a, []) else none
  | a :: b :: rest =>
    if a = '2' && ('0' ≤ b && b ≤ '3') then some (20 + digitVal b, rest)
    else if (a = '0' || a = '1') && b.isDigit then
      some (digitVal a * 10 + digitVal b, rest)
    else if a.isDigit then some (digitVal a, b :: rest)
    else none

/-- The `strptime` minute and second fields: one or two digits, 0 to 59. -/
def parseMinSec : List Char → Option (ℕ × List Char)
  | [] => none
  | [a] => if a.isDigit then some (digitVal a, []) else none
  | a :: b :: rest =>
    if ('0' ≤ a && a ≤ '5') && b.isDigit then
      some (digitVal a * 10 + digitVal b, rest)
    else if a.isDigit then some (digitVal a, b :: rest)
    else none

/-- Parse `%Y sep %m sep %d`, returning the remainder of the input. -/
def parseDatePrefix (sep : Char) (cs : List Char) :
    Option (ℕ × ℕ × ℕ × List Char) :=
  match parse4Digits cs with
  | none => none
  | some (y, r1) =>
    match r1 with
    | c1 :: r2 =>
      if c1 = sep then
        match parseMonth r2 with
        | none => none
        | some (m, r3) =>
          match r3 with
          | c2 :: r4 =>
            if c2 = sep then
              match parseDay r4 with
              | none => none
              | some (d, r5) => some (y, m, d, r5)
            else none
          | [] => none
      else none
    | [] => none

/-- Parse `%H:%M:%S` consuming the whole remainder. -/
def parseTimePart (cs : List Char) : Option (ℕ × ℕ × ℕ) :=
  match parseHour cs with
  | none => none
  | some (hh, r1) =>
    match r1 with
    | ':' :: r2 =>
      match parseMinSec r2 with
      | none => none
      | some (mm, r3) =>
        match r3 with
        | ':' :: r4 =>
          match parseMinSec r4 with
          | none => none
          | some (ss, r5) => if r5 = [] then some (hh, mm, ss) else none
        | _ => none
    | _ => none

/-- `strptime` with format `%Y-%m-%d` (or `%Y/%m/%d` via `sep`). -/
def strptimeDateOnly (sep : Char) (cs : List Char) : Option PyDateTime :=
  match parseDatePrefix sep cs with
  | some (y, m, d, []) => mkPyDateTime y m d 0 0 0
  | _ => none

/-- `strptime` with format `%Y-%m-%dT%H:%M:%S` or `%Y-%m-%d %H:%M:%S`. -/
def strptimeDateTime (timeSep : Char) (cs : List Char) : Option PyDateTime :=
  match parseDatePrefix '-' cs with
  | some (y, m, d, c :: rest) =>
    if c = timeSep then
      match parseTimePart rest with
      | some (hh, mm, ss) => mkPyDateTime y m d hh mm ss
      | none => none
    else none
  | _ => none

/-- Source `GraphFilter._parse_date` (the identical private copy in
`GraphRanker` is the same function): clean the string, try the four
formats in order, then fall back to the text before the first `T` or
space parsed as `%Y-%m-%d`. -/
def parse_date (date_str0 : String) : Option PyDateTime :=
  if date_str0 = "" then none
  else
    let ds := pyStripChar squote (pyStripChar '"' (pyStrip date_str0))
    match strptimeDateOnly '-' ds.data with
    | some dt => some dt
    | none =>
      match strptimeDateTime 'T' ds.data with
      | some dt => some dt
      | none =>
        match strptimeDateTime ' ' ds.data with
        | some dt => some dt
        | none =>
          match strptimeDateOnly '/' ds.data with
          | some dt => some dt
          | none =>
            let date_part := (ds.data.takeWhile fun c => c ≠ 'T').takeWhile fun c => c ≠ ' '
            strptimeDateOnly '-' date_part

/-- Filter configuration (`FilterConfig` dataclass). -/
structure FilterConfig where
  tags : Option (List String)
  tags_match_all : Bool
  frontmatter_filters : Option (Dict PyVal)
  include_paths : Option (List String)
  exclude_paths : Option (List String)
  created_after : Option String
  created_before : Option String
  modified_after : Option String
  modified_before : Option String
deriving DecidableEq

/-- All-defaults `FilterConfig()`. -/
def emptyFilterConfig : FilterConfig :=
  ⟨none, false, none, none, none, none, none, none, none⟩

/-- Python truthiness of an optional string (`None` and `""` are falsy). -/
def optTruthyStr : Option String → Bool
  | none => false
  | some s => s ≠ ""

/-- Python truthiness of an optional list. -/
def optTruthyList : Option (List String) → Bool
  | none => false
  | some l => l ≠ []

/-- Python truthiness of an optional dict. -/
def optTruthyDict : Option (Dict PyVal) → Bool
  | none => false
  | some d => d ≠ []

/-- Source `GraphFilter._check_tags`. -/
def check_tags (cfg : FilterConfig) (node_tags : List String) : Bool :=
  if ¬ optTruthyList cfg.tags then true
  else
    let filter_tags := (cfg.tags.getD []).map fun t => pyLower (lstripChar '#' t)
    let node_tags_normalized := node_tags.map fun t => pyLower (lstripChar '#' t)
    if cfg.tags_match_all then filter_tags.all (· ∈ node_tags_normalized)
    else filter_tags.any (· ∈ node_tags_normalized)

/-- One key of `GraphFilter._check_frontmatter`.  Structural equality
models Python `==` faithfully on the values reachable here (the note side
is always a string or a list of strings). -/
def checkFmEntry (frontmatter : Dict PyVal) (key : String) (expected : PyVal) : Bool :=
  match lookupStr frontmatter key with
  | none => false
  | some actual =>
    match expected, actual with
    | .str es, .str as_ => pyLower es = pyLower as_
    | _, .strList l =>
      (match expected with
       | .str es => l.contains es || l.any fun v => pyLower es = pyLower v
       | _ => false)
    | _, _ => expected = actual

/-- Source `GraphFilter._check_frontmatter`. -/
def check_frontmatter (cfg : FilterConfig) (frontmatter : Dict PyVal) : Bool :=
  if ¬ optTruthyDict cfg.frontmatter_filters then true
  else (cfg.frontmatter_filters.getD []).all fun kv => checkFmEntry frontmatter kv.1 kv.2

/-- Source `GraphFilter._check_path`. -/
def check_path (cfg : FilterConfig) (path : String) : Bool :=
  if optTruthyList cfg.exclude_paths &&
      (cfg.exclude_paths.getD []).any
        (fun pattern => fnmatchPy path pattern || fnmatchPy path ("*/" ++ pattern)) then
    false
  else if optTruthyList cfg.include_paths &&
      ¬ (cfg.include_paths.getD []).any
        (fun pattern => fnmatchPy path pattern || fnmatchPy path ("*/" ++ pattern)) then
    false
  else true

/-- Source `GraphFilter._check_dates`. -/
def check_dates (cfg : FilterConfig) (created modified : Option String) : Bool :=
  let createdOK :=
    if optTruthyStr cfg.created_after || optTruthyStr cfg.created_before then
      if ¬ optTruthyStr created then false
      else
        match parse_date (created.getD "") with
        | none => false
        | some created_dt =>
          let failAfter :=
            if optTruthyStr cfg.created_after then
              match parse_date (cfg.created_after.getD "") with
              | some after_dt => PyDateTime.lt created_dt after_dt
              | none => false
            else false
          let failBefore :=
            if optTruthyStr cfg.created_before then
              match parse_date (cfg.created_before.getD "") with
              | some before_dt => PyDateTime.lt before_dt created_dt
              | none => false
            else false
          ¬ (failAfter || failBefore)
    else true
  let modifiedOK :=
    if optTruthyStr cfg.modified_after || optTruthyStr cfg.modified_before then
      if ¬ optTruthyStr modified then false
      else
        match parse_date (modified.getD "") with
        | none => false
        | some modified_dt =>
          let failAfter :=
            if optTruthyStr cfg.modified_after then
              match parse_date (cfg.modified_after.getD "") with
              | some after_dt => PyDateTime.lt modified_dt after_dt
              | none => false
            else false
          let failBefore :=
            if optTruthyStr cfg.modified_before then
              match parse_date (cfg.modified_before.getD "") with
              | some before_dt => PyDateTime.lt before_dt modified_dt
              | none => false
            else false
          ¬ (failAfter || failBefore)
    else true
  createdOK && modifiedOK

/-- Source `GraphFilter.matches`. -/
def filter_matches (cfg : FilterConfig) (path : String) (metadata : Metadata) : Bool :=
  if ¬ check_path cfg path then false
  else if optTruthyList cfg.tags && ¬ check_tags cfg metadata.tags then false
  else if optTruthyDict cfg.frontmatter_filters &&
      ¬ check_frontmatter cfg metadata.frontmatter then false
  else if ¬ check_dates cfg metadata.created metadata.modified then false
  else true

/-! ### `GraphRanker` recency scoring (graph_ranker.py)

`datetime.now()` is passed in explicitly as `now`; `math.exp` over floats
is modelled by `Real.exp`, so the scoring definitions live in `ℝ` and are
necessarily noncomputable. -/

/-- `RankingConfig` dataclass. -/
structure RankingConfig where
  enable_pagerank : Bool
  enable_recency : Bool
  recency_weight : ℝ
  decay_days : ℝ
  pagerank_alpha : ℝ

/-- `RankingConfig()` with the dataclass defaults. -/
noncomputable def defaultRankingConfig : RankingConfig :=
  ⟨true, true, 0.340, 10.25, 0.85⟩

/-- Days from the civil epoch 1970-01-01 (standard civil-calendar
formula), used to give `datetime` subtraction an explicit meaning. -/
def daysFromCivil (y m d : ℕ) : ℤ :=
  let yi : ℤ := y
  let y2 : ℤ := if m ≤ 2 then yi - 1 else yi
  let era : ℤ := Int.fdiv y2 400
  let yoe : ℤ := y2 - era * 400
  let mp : ℤ := ((m : ℤ) + 9) % 12
  let doy : ℤ := Int.fdiv (153 * mp + 2) 5 + (d : ℤ) - 1
  let doe : ℤ := yoe * 365 + Int.fdiv yoe 4 - Int.fdiv yoe 100 + doy
  era * 146097 + doe - 719468

/-- Seconds into the day of a `datetime`. -/
def secondsOfDay (dt : PyDateTime) : ℤ :=
  (dt.hour : ℤ) * 3600 + (dt.minute : ℤ) * 60 + (dt.second : ℤ)

/-- Python `(b - a).days`: the floor of the difference in whole days
(`timedelta` normalises with floor division). -/
def timedeltaDays (a b : PyDateTime) : ℤ :=
  Int.fdiv
    ((daysFromCivil b.year b.month b.day - daysFromCivil a.year a.month a.day) * 86400 +
      (secondsOfDay b - secondsOfDay a))
    86400

/-- The exponential-decay-and-clamp tail of
`GraphRanker._compute_recency_score` for a nonnegative age. -/
noncomputable def recencyOfDays (config : RankingConfig) (days_old : ℤ) : ℝ :=
  max 0 (min 1 (Real.exp (-(days_old : ℝ) / config.decay_days)))

/-- Source `GraphRanker._compute_recency_score`, with `datetime.now()`
made explicit. -/
noncomputable def compute_recency_score (config : RankingConfig)
    (now : PyDateTime) (created_date : Option String) : ℝ :=
  match created_date with
  | none => 0.5
  | some s =>
    if s = "" then 0.5
    else
      match parse_date s with
      | none => 0.5
      | some created_dt =>
        let days_old := timedeltaDays created_dt now
        if days_old < 0 then 1
        else recencyOfDays config days_old

/-! ### Graph traversal (`ObsidianGraphToolHandler._traverse_with_index`,
tools.py) -/

/-- One node record of the traversal result. -/
structure TravNode where
  path : String
  title : String
  word_count : ℕ
  snippet : String
  hop_distance : ℕ
  tags : List String
  frontmatter : Dict PyVal
  created : Option String
  modified : Option String
deriving DecidableEq

/-- One edge record of the traversal result. -/
structure TravEdge where
  fromPath : String
  toPath : String
  edgeType : String
  linkText : String
deriving DecidableEq

/-- Snippet extraction: first `snippet_length` characters, stripped, then
cut back to the last period when the content was truncated mid-text. -/
def snippetOf (content : String) (snippet_length : ℕ) : String :=
  let snippet := stripWhile isPySpace (content.data.take snippet_length)
  if snippet_length < content.data.length then
    match (snippet.reverse.dropWhile fun c => c ≠ '.').length with
    | 0 => String.mk snippet
    | n + 1 => if 0 < n then String.mk (snippet.take (n + 1)) else String.mk snippet
  else String.mk snippet

/-- The node record built for an accepted path. -/
def mkTravNode (md : Metadata) (path snippet : String) (hop : ℕ) : TravNode :=
  { path := path
    title := md.title.getD path
    word_count := md.word_count.getD 0
    snippet := snippet
    hop_distance := hop
    tags := md.tags
    frontmatter := md.frontmatter
    created := md.created
    modified := md.modified }

/-- The BFS loop of `_traverse_with_index`.  The Python `while` loop is
modelled with explicit fuel; every property proved about it holds for all
fuel values.  The getter returns `none` for a non-string payload or a
caught exception (`continue`); the queue is a FIFO list; the two neighbour
`for` loops are written as their filter-and-append meaning. -/
def traverseLoop (idx : GraphIndexState)
    (flt : Option (String → Metadata → Bool)) (getter : String → Option String)
    (max_hops max_nodes snippet_length : ℕ) :
    ℕ → List (String × ℕ) → List String → List (String × TravNode) →
    List TravEdge → List (String × TravNode) × List TravEdge
  | 0, _, _, result_nodes, result_edges => (result_nodes, result_edges)
  | _ + 1, [], _, result_nodes, result_edges => (result_nodes, result_edges)
  | fuel + 1, (current_path, hop) :: rest, visited, result_nodes, result_edges =>
    if max_nodes ≤ result_nodes.length then (result_nodes, result_edges)
    else if current_path ∈ visited then
      traverseLoop idx flt getter max_hops max_nodes snippet_length fuel
        rest visited result_nodes result_edges
    else
      let visited1 := current_path :: visited
      let metadata := get_metadata idx current_path
      if (match flt with
          | some f => ! f current_path metadata
          | none => false) then
        traverseLoop idx flt getter max_hops max_nodes snippet_length fuel
          rest visited1 result_nodes result_edges
      else
        match getter current_path with
        | none =>
          traverseLoop idx flt getter max_hops max_nodes snippet_length fuel
            rest visited1 result_nodes result_edges
        | some content =>
          let node := mkTravNode metadata current_path
            (snippetOf content snippet_length) hop
          let result_nodes1 := result_nodes ++ [(current_path, node)]
          if hop < max_hops then
            let newFwd := (get_forward_links idx current_path).filter
              fun t => t ∉ visited1
            let newBl := (get_backlinks idx current_path).filter
              fun s => s ∉ visited1
            let result_edges1 := result_edges ++
              (newFwd.map fun t => TravEdge.mk current_path t "wikilink" "") ++
              (newBl.map fun s => TravEdge.mk s current_path "wikilink" "")
            let queue1 := rest ++ (newFwd.map fun t => (t, hop + 1)) ++
              (newBl.map fun s => (s, hop + 1))
            traverseLoop idx flt getter max_hops max_nodes snippet_length fuel
              queue1 visited1 result_nodes1 result_edges1
          else
            traverseLoop idx flt getter max_hops max_nodes snippet_length fuel
              rest visited1 result_nodes1 result_edges

/-- Traversal result record. -/
structure TravResult where
  center_path : String
  center_title : String
  nodes : List TravNode
  edges : List TravEdge
  total_nodes : ℕ
  total_edges : ℕ
  max_hops_used : ℕ
deriving DecidableEq

/-- Source `_traverse_with_index` (the unused `file_paths` parameter of the
Python signature is omitted). -/
def traverse_with_index (start_path : String) (idx : GraphIndexState)
    (flt : Option (String → Metadata → Bool)) (getter : String → Option String)
    (max_hops max_nodes snippet_length fuel : ℕ) : TravResult :=
  let (result_nodes, result_edges) :=
    traverseLoop idx flt getter max_hops max_nodes snippet_length fuel
      [(start_path, 0)] [] [] []
  { center_path := start_path
    center_title := ((lookupStr result_nodes start_path).map (·.title)).getD ""
    nodes := result_nodes.map (·.2)
    edges := result_edges
    total_nodes := result_nodes.length
    total_edges := result_edges.length
    max_hops_used := max_hops }

/-! ### The adjacency mirror invariant -/

/-- The two adjacency views are exact mirrors. -/
def Mirror (st : GraphIndexState) : Prop :=
  ∀ n m : String, m ∈ get_forward_links st n ↔ n ∈ get_backlinks st m

/-- Structural well-formedness of the index maps: key lists and stored
neighbour sets are duplicate-free (they model Python dicts and sets). -/
def IndexWF (st : GraphIndexState) : Prop :=
  (dictKeys st.adjacency).Nodup ∧ (dictKeys st.reverse_adj).Nodup ∧
    (∀ n, (get_forward_links st n).Nodup) ∧ (∀ n, (get_backlinks st n).Nodup)


/-- Key containment invariant threaded through the per-file loop: every key
of the three populated maps is a filtered markdown file. -/
def KeysFrom (st : GraphIndexState) (md : List String) : Prop :=
  (∀ k ∈ dictKeys st.adjacency, k ∈ md) ∧
    (∀ k ∈ dictKeys st.reverse_adj, k ∈ md) ∧
    (∀ k ∈ dictKeys st.metadata_cache, k ∈ md)


/-! ### PageRank refinement against the spec wording (C4) -/

/-- Spec wording: `outDegree(src) = |forwardLinks(src)|`. -/
def outDegreeSpec (adjacency : Dict (List String)) (src : String) : ℕ :=
  (dictGetD adjacency src []).length

/-- Spec wording: for each node `n`,
`newScore[n] = (1-α)/N + α * Σ over src in backlinks(n) of score[src]/outDegree(src)`,
where nodes of zero out-degree contribute nothing, and every new score is
computed from the previous full snapshot (synchronous update). -/
def pagerankSpecStep (adjacency reverse_adj : Dict (List String))
    (nodes : List String) (alpha : ℚ) (n : ℕ) (scores : Dict ℚ) : Dict ℚ :=
  nodes.map fun node =>
    (node,
      (1 - alpha) / (n : ℚ) +
        alpha *
          ((dictGetD reverse_adj node []).map fun src =>
            if 0 < outDegreeSpec adjacency src then
              dictGetD scores src 0 / (outDegreeSpec adjacency src : ℚ)
            else 0).sum)

/-- Spec wording: iterate synchronously until the total absolute (L1)
change across all nodes drops below tolerance, or the iteration cap is
reached. -/
def pagerankSpecLoop (adjacency reverse_adj : Dict (List String))
    (nodes : List String) (alpha tol : ℚ) (n : ℕ) :
    ℕ → Dict ℚ → Dict ℚ
  | 0, scores => scores
  | k + 1, scores =>
    let ns := pagerankSpecStep adjacency reverse_adj nodes alpha n scores
    if (nodes.map fun node => |dictGetD ns node 0 - dictGetD scores node 0|).sum < tol
    then ns
    else pagerankSpecLoop adjacency reverse_adj nodes alpha tol n k ns

/-- Spec wording: power iteration with α = 0.85, tolerance 1e-6, cap 100,
starting from the uniform distribution 1/N; an empty graph yields an empty
score map with no error. -/
def pagerankSpec (adjacency reverse_adj : Dict (List String)) : Dict ℚ :=
  let nodes := dictKeys adjacency
  if nodes = [] then []
  else
    pagerankSpecLoop adjacency reverse_adj nodes (85 / 100) (1 / 1000000)
      nodes.length 100 (nodes.map fun node => (node, 1 / (nodes.length : ℚ)))


/-- Spec wording for link resolution (C6): resolving a raw target tries, in
order, the full normalized path, the basename, the space-variant and the
underscore-variant, taking the first hit. -/
def resolveCascadeSpec (target : String) (name_to_path : Dict String) :
    Option String :=
  let normalized0 := pyStrip (pyLower target)
  let normalized :=
    if strEndsWith normalized0 ".md" then strDropRight normalized0 3 else normalized0
  let filename := pathName normalized
  ((lookupStr name_to_path normalized).orElse fun _ =>
    (lookupStr name_to_path filename).orElse fun _ =>
      (lookupStr name_to_path (replaceChar ' ' '_' filename)).orElse fun _ =>
        lookupStr name_to_path (replaceChar '_' ' ' filename))


/-! ### Dictionary lemmas -/

theorem lookupStr_dictInsert {α : Type} (d : Dict α) (k k' : String) (v : α) :
    lookupStr (dictInsert d k v) k' = if k = k' then some v else lookupStr d k' := by
  induction d with
  | nil =>
    by_cases h : k = k' <;> simp [dictInsert, lookupStr, h]
  | cons hd tl ih =>
    obtain ⟨k0, v0⟩ := hd
    by_cases h0 : k0 = k
    · subst h0
      by_cases h : k0 = k' <;> simp [dictInsert, lookupStr, h]
    · simp only [dictInsert, if_neg h0]
      by_cases h : k0 = k'
      · subst h
        have hs : ¬ k = k0 := fun hh => h0 hh.symm
        simp [lookupStr, hs]
      · simp [lookupStr, h, ih]

theorem mem_dictKeys_iff_lookup {α : Type} (d : Dict α) (k : String) :
    k ∈ dictKeys d ↔ (lookupStr d k).isSome := by
  induction d with
  | nil => simp [dictKeys, lookupStr]
  | cons hd tl ih =>
    obtain ⟨k0, v0⟩ := hd
    by_cases h : k0 = k
    · subst h; simp [dictKeys, lookupStr]
    · have hs : ¬ k = k0 := fun hh => h hh.symm
      simp only [dictKeys, List.map_cons, List.mem_cons, hs, false_or, lookupStr, if_neg h]
      simpa [dictKeys] using ih

theorem lookupStr_eq_none {α : Type} (d : Dict α) (k : String)
    (h : k ∉ dictKeys d) : lookupStr d k = none := by
  have := (mem_dictKeys_iff_lookup d k).not.mp h
  cases hl : lookupStr d k
  · rfl
  · rw [hl] at this; simp at this

theorem dictKeys_dictInsert {α : Type} (d : Dict α) (k : String) (v : α) :
    dictKeys (dictInsert d k v) =
      if k ∈ dictKeys d then dictKeys d else dictKeys d ++ [k] := by
  simp only [dictKeys]
  induction d with
  | nil => simp [dictInsert]
  | cons hd tl ih =>
    obtain ⟨k0, v0⟩ := hd
    by_cases h0 : k0 = k
    · subst h0; simp [dictInsert]
    · have h0s : ¬ k = k0 := fun hh => h0 hh.symm
      simp only [dictInsert, if_neg h0, List.map_cons, List.mem_cons, h0s, false_or]
      by_cases hm : k ∈ tl.map Prod.fst
      · simp [hm, ih]
      · simp [hm, ih]

theorem nodup_dictKeys_dictInsert {α : Type} (d : Dict α) (k : String) (v : α)
    (h : (dictKeys d).Nodup) : (dictKeys (dictInsert d k v)).Nodup := by
  rw [dictKeys_dictInsert]
  split
  · exact h
  · next hm =>
    refine List.Nodup.append h (List.nodup_singleton _) ?_
    intro a ha hak
    simp only [List.mem_singleton] at hak
    subst hak
    exact hm ha

theorem mem_setAdd (l : List String) (x y : String) :
    y ∈ setAdd l x ↔ y ∈ l ∨ y = x := by
  by_cases h : x ∈ l
  · simp only [setAdd, if_pos h]
    constructor
    · exact Or.inl
    · rintro (hy | rfl) <;> [exact hy; exact h]
  · simp [setAdd, if_neg h]

theorem nodup_setAdd (l : List String) (x : String) (h : l.Nodup) :
    (setAdd l x).Nodup := by
  by_cases hx : x ∈ l
  · simpa [setAdd, hx] using h
  · rw [setAdd, if_neg hx]
    refine List.Nodup.append h (List.nodup_singleton _) ?_
    intro a ha hak
    simp only [List.mem_singleton] at hak
    subst hak
    exact hx ha

theorem lookupStr_ensureKey (d : Dict (List String)) (k k' : String) :
    lookupStr (ensureKey d k) k' =
      if k = k' then some ((lookupStr d k).getD []) else lookupStr d k' := by
  unfold ensureKey
  by_cases hs : (lookupStr d k).isSome
  · rw [if_pos hs]
    by_cases h : k = k'
    · subst h
      cases hl : lookupStr d k
      · rw [hl] at hs; simp at hs
      · simp [hl]
    · simp [h]
  · rw [if_neg hs]
    rw [lookupStr_dictInsert]
    by_cases h : k = k'
    · subst h
      cases hl : lookupStr d k
      · simp [hl]
      · rw [hl] at hs; simp at hs
    · simp [h]

theorem dictGetD_addToSet (d : Dict (List String)) (k x k' : String) :
    dictGetD (addToSet d k x) k' [] =
      if k = k' then setAdd (dictGetD d k []) x else dictGetD d k' [] := by
  unfold addToSet dictGetD
  rw [lookupStr_dictInsert]
  by_cases h : k = k' <;> simp [h]

theorem dictGetD_ensureKey (d : Dict (List String)) (k k' : String) :
    dictGetD (ensureKey d k) k' [] = dictGetD d k' [] := by
  unfold dictGetD
  rw [lookupStr_ensureKey]
  by_cases h : k = k'
  · subst h
    cases hl : lookupStr d k <;> simp [hl]
  · simp [h]

theorem dictKeys_ensureKey (d : Dict (List String)) (k : String) :
    dictKeys (ensureKey d k) =
      if k ∈ dictKeys d then dictKeys d else dictKeys d ++ [k] := by
  unfold ensureKey
  by_cases hs : (lookupStr d k).isSome
  · rw [if_pos hs, if_pos ((mem_dictKeys_iff_lookup d k).mpr hs)]
  · rw [if_neg hs, dictKeys_dictInsert,
      if_neg (fun hm => hs ((mem_dictKeys_iff_lookup d k).mp hm))]

theorem dictKeys_addToSet (d : Dict (List String)) (k x : String) :
    dictKeys (addToSet d k x) =
      if k ∈ dictKeys d then dictKeys d else dictKeys d ++ [k] :=
  dictKeys_dictInsert d k _

theorem lookupStr_mem_values {α : Type} (d : Dict α) (k : String) (v : α)
    (h : lookupStr d k = some v) : v ∈ d.map Prod.snd := by
  induction d with
  | nil => simp [lookupStr] at h
  | cons hd tl ih =>
    obtain ⟨k0, v0⟩ := hd
    by_cases h0 : k0 = k
    · subst h0; simp [lookupStr] at h; simp [h]
    · simp only [lookupStr, if_neg h0] at h
      simp [ih h]

theorem values_dictInsert {α : Type} (d : Dict α) (k : String) (v x : α)
    (h : x ∈ (dictInsert d k v).map Prod.snd) : x ∈ d.map Prod.snd ∨ x = v := by
  induction d with
  | nil => simp [dictInsert] at h; simp [h]
  | cons hd tl ih =>
    obtain ⟨k0, v0⟩ := hd
    by_cases h0 : k0 = k
    · subst h0
      simp [dictInsert] at h
      rcases h with h | h
      · simp [h]
      · simp [h]
    · simp only [dictInsert, if_neg h0, List.map_cons, List.mem_cons] at h
      rcases h with h | h
      · simp [h]
      · rcases ih h with h | h
        · simp [h]
        · simp [h]

theorem mirror_processLink (nm : Dict String) (fp t : String)
    (st : GraphIndexState) (h : Mirror st) : Mirror (processLink nm fp st t) := by
  unfold processLink
  cases hres : resolve_link t nm with
  | none => exact h
  | some tp =>
    dsimp only
    by_cases h1 : tp = ""
    · simpa [h1] using h
    · rw [if_neg h1]
      by_cases h2 : tp = fp
      · simpa [h2] using h
      · rw [if_neg h2]
        intro n m
        simp only [get_forward_links, get_backlinks]
        rw [dictGetD_addToSet]
        rw [show (addToSet (ensureKey st.reverse_adj tp) tp fp) =
          dictInsert (ensureKey st.reverse_adj tp) tp
            (setAdd (dictGetD (ensureKey st.reverse_adj tp) tp []) fp) from rfl]
        rw [show dictGetD (dictInsert (ensureKey st.reverse_adj tp) tp
            (setAdd (dictGetD (ensureKey st.reverse_adj tp) tp []) fp)) m [] =
          dictGetD (addToSet (ensureKey st.reverse_adj tp) tp fp) m [] from rfl]
        rw [dictGetD_addToSet, dictGetD_ensureKey, dictGetD_ensureKey]
        have hmain := h n m
        simp only [get_forward_links, get_backlinks] at hmain
        by_cases hn : fp = n
        · subst hn
          rw [if_pos rfl]
          by_cases hm : tp = m
          · subst hm
            rw [if_pos rfl, mem_setAdd, mem_setAdd]
            simp
          · rw [if_neg hm, mem_setAdd]
            have hmt : ¬ m = tp := fun hh => hm hh.symm
            constructor
            · rintro (hmem | rfl)
              · exact hmain.mp hmem
              · exact absurd rfl hmt
            · intro hb
              exact Or.inl (hmain.mpr hb)
        · rw [if_neg hn]
          by_cases hm : tp = m
          · subst hm
            rw [if_pos rfl, mem_setAdd]
            have hnf : ¬ n = fp := fun hh => hn hh.symm
            constructor
            · intro hmem
              exact Or.inl (hmain.mp hmem)
            · rintro (hb | rfl)
              · exact hmain.mpr hb
              · exact absurd rfl hnf
          · rw [if_neg hm]
            exact hmain

theorem wf_processLink (nm : Dict String) (fp t : String)
    (st : GraphIndexState) (h : IndexWF st) : IndexWF (processLink nm fp st t) := by
  obtain ⟨hka, hkr, hva, hvr⟩ := h
  unfold processLink
  cases hres : resolve_link t nm with
  | none => exact ⟨hka, hkr, hva, hvr⟩
  | some tp =>
    dsimp only
    by_cases h1 : tp = ""
    · simpa [h1] using ⟨hka, hkr, hva, hvr⟩
    · rw [if_neg h1]
      by_cases h2 : tp = fp
      · simpa [h2] using ⟨hka, hkr, hva, hvr⟩
      · rw [if_neg h2]
        refine ⟨?_, ?_, ?_, ?_⟩
        · exact nodup_dictKeys_dictInsert _ _ _ hka
        · refine nodup_dictKeys_dictInsert _ _ _ ?_
          rw [dictKeys_ensureKey]
          split
          · exact hkr
          · next hm =>
            refine List.Nodup.append hkr (List.nodup_singleton _) ?_
            intro a ha hak
            simp only [List.mem_singleton] at hak
            subst hak
            exact hm ha
        · intro n
          simp only [get_forward_links]
          rw [dictGetD_addToSet]
          split
          · exact nodup_setAdd _ _ (hva fp)
          · exact hva n
        · intro n
          simp only [get_backlinks]
          rw [show (addToSet (ensureKey st.reverse_adj tp) tp fp) =
            dictInsert (ensureKey st.reverse_adj tp) tp
              (setAdd (dictGetD (ensureKey st.reverse_adj tp) tp []) fp) from rfl]
          rw [show dictGetD (dictInsert (ensureKey st.reverse_adj tp) tp
              (setAdd (dictGetD (ensureKey st.reverse_adj tp) tp []) fp)) n [] =
            dictGetD (addToSet (ensureKey st.reverse_adj tp) tp fp) n [] from rfl]
          rw [dictGetD_addToSet, dictGetD_ensureKey, dictGetD_ensureKey]
          split
          · exact nodup_setAdd _ _ (hvr tp)
          · exact hvr n

theorem mirror_ensure_meta (st : GraphIndexState) (fp : String) (md : Metadata)
    (h : Mirror st) :
    Mirror
      { st with
        adjacency := ensureKey st.adjacency fp,
        reverse_adj := ensureKey st.reverse_adj fp,
        metadata_cache := dictInsert st.metadata_cache fp md } := by
  intro n m
  simp only [get_forward_links, get_backlinks, dictGetD_ensureKey]
  exact h n m

theorem wf_ensure_meta (st : GraphIndexState) (fp : String) (md : Metadata)
    (h : IndexWF st) :
    IndexWF
      { st with
        adjacency := ensureKey st.adjacency fp,
        reverse_adj := ensureKey st.reverse_adj fp,
        metadata_cache := dictInsert st.metadata_cache fp md } := by
  obtain ⟨hka, hkr, hva, hvr⟩ := h
  have hnodup : ∀ d : Dict (List String), (dictKeys d).Nodup →
      (dictKeys (ensureKey d fp)).Nodup := by
    intro d hd
    rw [dictKeys_ensureKey]
    split
    · exact hd
    · next hm =>
      refine List.Nodup.append hd (List.nodup_singleton _) ?_
      intro a ha hak
      simp only [List.mem_singleton] at hak
      subst hak
      exact hm ha
  refine ⟨hnodup _ hka, hnodup _ hkr, ?_, ?_⟩
  · intro n
    simpa only [get_forward_links, dictGetD_ensureKey] using hva n
  · intro n
    simpa only [get_backlinks, dictGetD_ensureKey] using hvr n

theorem mirror_wf_foldl_processLink (nm : Dict String) (fp : String)
    (wl : List (String × String × ℕ)) :
    ∀ st : GraphIndexState, Mirror st ∧ IndexWF st →
      Mirror (wl.foldl (fun s t => processLink nm fp s t.1) st) ∧
        IndexWF (wl.foldl (fun s t => processLink nm fp s t.1) st) := by
  induction wl with
  | nil => intro st h; exact h
  | cons hd tl ih =>
    intro st h
    exact ih _ ⟨mirror_processLink nm fp hd.1 st h.1, wf_processLink nm fp hd.1 st h.2⟩

theorem mirror_wf_processFile (getter : String → Fetch) (nm : Dict String)
    (st : GraphIndexState) (fp : String) (h : Mirror st ∧ IndexWF st) :
    Mirror (processFile getter nm st fp).1 ∧ IndexWF (processFile getter nm st fp).1 := by
  unfold processFile
  cases getter fp with
  | fatal => exact h
  | exc => exact h
  | notStr => exact h
  | ok content =>
    dsimp only
    refine mirror_wf_foldl_processLink nm fp _ _ ⟨?_, ?_⟩
    · exact mirror_ensure_meta st fp _ h.1
    · exact wf_ensure_meta st fp _ h.2

theorem mirror_wf_buildFiles (getter : String → Fetch) (nm : Dict String)
    (files : List String) :
    ∀ st : GraphIndexState, Mirror st ∧ IndexWF st →
      Mirror (buildFiles getter nm st files).1 ∧
        IndexWF (buildFiles getter nm st files).1 := by
  induction files with
  | nil => intro st h; exact h
  | cons fp rest ih =>
    intro st h
    rw [buildFiles]
    cases hpf : processFile getter nm st fp with
    | mk st1 aborted =>
      have h1 : Mirror st1 ∧ IndexWF st1 := by
        have := mirror_wf_processFile getter nm st fp h
        rw [hpf] at this
        exact this
      cases aborted with
      | true => exact h1
      | false => exact ih st1 h1

theorem mirror_wf_build (st0 : GraphIndexState) (all_files : List String)
    (getter : String → Fetch) :
    Mirror (build st0 all_files getter).1 ∧ IndexWF (build st0 all_files getter).1 := by
  unfold build
  set cleared : GraphIndexState :=
    { st0 with
      adjacency := [], reverse_adj := [], pagerank_scores := [],
      metadata_cache := [], all_files := all_files } with hcleared
  have hc : Mirror cleared ∧ IndexWF cleared := by
    constructor
    · intro n m
      simp [get_forward_links, get_backlinks, hcleared, dictGetD, lookupStr]
    · refine ⟨?_, ?_, ?_, ?_⟩ <;>
        simp [dictKeys, hcleared, get_forward_links, get_backlinks, dictGetD, lookupStr]
  have hmain := mirror_wf_buildFiles getter
    (build_name_to_path_map (all_files.filter fun f =>
      strEndsWith f ".md" && should_index cleared.exclude_paths f))
    (all_files.filter fun f => strEndsWith f ".md" && should_index cleared.exclude_paths f)
    cleared hc
  cases hbf : buildFiles getter
      (build_name_to_path_map (all_files.filter fun f =>
        strEndsWith f ".md" && should_index cleared.exclude_paths f))
      cleared
      (all_files.filter fun f => strEndsWith f ".md" && should_index cleared.exclude_paths f) with
  | mk st1 aborted =>
    rw [hbf] at hmain
    cases aborted with
    | true => simpa [hbf] using hmain
    | false =>
      dsimp only
      rw [hbf]
      dsimp only
      constructor
      · intro n m
        simpa only [get_forward_links, get_backlinks] using hmain.1 n m
      · obtain ⟨hka, hkr, hva, hvr⟩ := hmain.2
        exact ⟨hka, hkr, fun n => hva n, fun n => hvr n⟩

/-- C2: after any build, the adjacency and reverse-adjacency views are exact
mirrors — for all paths `m` and `n`, `n ∈ get_backlinks m` if and only if
`m ∈ get_forward_links n`. -/
theorem build_mirror_adjacency (st0 : GraphIndexState) (all_files : List String)
    (getter : String → Fetch) (m n : String) :
    n ∈ get_backlinks (build st0 all_files getter).1 m ↔
      m ∈ get_forward_links (build st0 all_files getter).1 n :=
  ((mirror_wf_build st0 all_files getter).1 n m).symm

/-! ### Key provenance: every key of a built index is a filtered file -/

theorem mem_dictKeys_dictInsert {α : Type} (d : Dict α) (k x : String) (v : α)
    (h : x ∈ dictKeys (dictInsert d k v)) : x ∈ dictKeys d ∨ x = k := by
  rw [dictKeys_dictInsert] at h
  split at h
  · exact Or.inl h
  · rcases List.mem_append.mp h with h | h
    · exact Or.inl h
    · simp only [List.mem_singleton] at h
      exact Or.inr h

theorem mem_dictKeys_ensureKey (d : Dict (List String)) (k x : String)
    (h : x ∈ dictKeys (ensureKey d k)) : x ∈ dictKeys d ∨ x = k := by
  unfold ensureKey at h
  split at h
  · exact Or.inl h
  · exact mem_dictKeys_dictInsert d k x [] h

theorem resolve_link_mem_values (t : String) (nm : Dict String) (v : String)
    (h : resolve_link t nm = some v) : v ∈ nm.map Prod.snd := by
  unfold resolve_link at h
  split at h
  · simp at h
  · dsimp only at h
    split at h
    · next heq => exact lookupStr_mem_values _ _ _ (by rw [heq, ← h])
    · split at h
      · next heq => exact lookupStr_mem_values _ _ _ (by rw [heq, ← h])
      · split at h
        · next heq => exact lookupStr_mem_values _ _ _ (by rw [heq, ← h])
        · split at h
          · next heq => exact lookupStr_mem_values _ _ _ (by rw [heq, ← h])
          · simp at h

theorem registerFile_values (m : Dict String) (fp x : String)
    (h : x ∈ (registerFile m fp).map Prod.snd) : x ∈ m.map Prod.snd ∨ x = fp := by
  unfold registerFile at h
  rcases values_dictInsert _ _ _ _ h with h | h
  · rcases values_dictInsert _ _ _ _ h with h | h
    · rcases values_dictInsert _ _ _ _ h with h | h
      · rcases values_dictInsert _ _ _ _ h with h | h
        · exact Or.inl h
        · exact Or.inr h
      · exact Or.inr h
    · exact Or.inr h
  · exact Or.inr h

theorem name_map_values (files : List String) :
    ∀ acc : Dict String, ∀ x, x ∈ (files.foldl registerFile acc).map Prod.snd →
      x ∈ acc.map Prod.snd ∨ x ∈ files := by
  induction files with
  | nil => intro acc x h; exact Or.inl h
  | cons fp rest ih =>
    intro acc x h
    rcases ih (registerFile acc fp) x h with h | h
    · rcases registerFile_values acc fp x h with h | h
      · exact Or.inl h
      · exact Or.inr (by simp [h])
    · exact Or.inr (by simp [h])

theorem build_name_to_path_map_values (files : List String) (x : String)
    (h : x ∈ (build_name_to_path_map files).map Prod.snd) : x ∈ files := by
  rcases name_map_values files [] x h with h | h
  · simp at h
  · exact h

theorem keysFrom_processLink (nm : Dict String) (fp t : String)
    (st : GraphIndexState) (md : List String) (hfp : fp ∈ md)
    (hnm : ∀ v ∈ nm.map Prod.snd, v ∈ md) (h : KeysFrom st md) :
    KeysFrom (processLink nm fp st t) md := by
  obtain ⟨ha, hr, hm⟩ := h
  unfold processLink
  cases hres : resolve_link t nm with
  | none => exact ⟨ha, hr, hm⟩
  | some tp =>
    dsimp only
    have htp : tp ∈ md := hnm tp (resolve_link_mem_values t nm tp hres)
    split
    · exact ⟨ha, hr, hm⟩
    · split
      · exact ⟨ha, hr, hm⟩
      · refine ⟨?_, ?_, hm⟩
        · intro k hk
          rcases mem_dictKeys_dictInsert _ _ _ _ hk with hk | hk
          · exact ha k hk
          · exact hk ▸ hfp
        · intro k hk
          rcases mem_dictKeys_dictInsert _ _ _ _ hk with hk | hk
          · rcases mem_dictKeys_ensureKey _ _ _ hk with hk | hk
            · exact hr k hk
            · exact hk ▸ htp
          · exact hk ▸ htp

theorem keysFrom_processFile (getter : String → Fetch) (nm : Dict String)
    (st : GraphIndexState) (fp : String) (md : List String) (hfp : fp ∈ md)
    (hnm : ∀ v ∈ nm.map Prod.snd, v ∈ md) (h : KeysFrom st md) :
    KeysFrom (processFile getter nm st fp).1 md := by
  unfold processFile
  cases getter fp with
  | fatal => exact h
  | exc => exact h
  | notStr => exact h
  | ok content =>
    dsimp only
    have h3 : KeysFrom
        { st with
          adjacency := ensureKey st.adjacency fp,
          reverse_adj := ensureKey st.reverse_adj fp,
          metadata_cache :=
            dictInsert st.metadata_cache fp (extract_metadata fp content) } md := by
      obtain ⟨ha, hr, hm⟩ := h
      refine ⟨?_, ?_, ?_⟩
      · intro k hk
        rcases mem_dictKeys_ensureKey _ _ _ hk with hk | hk
        · exact ha k hk
        · exact hk ▸ hfp
      · intro k hk
        rcases mem_dictKeys_ensureKey _ _ _ hk with hk | hk
        · exact hr k hk
        · exact hk ▸ hfp
      · intro k hk
        rcases mem_dictKeys_dictInsert _ _ _ _ hk with hk | hk
        · exact hm k hk
        · exact hk ▸ hfp
    revert h3
    generalize ({ st with
         adjacency := ensureKey st.adjacency fp,
         reverse_adj := ensureKey st.reverse_adj fp,
         metadata_cache :=
           dictInsert st.metadata_cache fp (extract_metadata fp content) } :
        GraphIndexState) = st3
    intro h3
    induction extract_wikilinks content generalizing st3 with
    | nil => exact h3
    | cons hd tl ih =>
      exact ih _ (keysFrom_processLink nm fp hd.1 st3 md hfp hnm h3)

theorem keysFrom_buildFiles (getter : String → Fetch) (nm : Dict String)
    (files : List String) (md : List String) (hfiles : ∀ f ∈ files, f ∈ md)
    (hnm : ∀ v ∈ nm.map Prod.snd, v ∈ md) :
    ∀ st : GraphIndexState, KeysFrom st md →
      KeysFrom (buildFiles getter nm st files).1 md := by
  induction files with
  | nil => intro st h; exact h
  | cons fp rest ih =>
    intro st h
    rw [buildFiles]
    cases hpf : processFile getter nm st fp with
    | mk st1 aborted =>
      have h1 : KeysFrom st1 md := by
        have := keysFrom_processFile getter nm st fp md (hfiles fp (by simp))
          hnm h
        rw [hpf] at this
        exact this
      cases aborted with
      | true => exact h1
      | false =>
        exact ih (fun f hf => hfiles f (by simp [hf])) st1 h1

theorem dictKeys_map_pair {α : Type} (nodes : List String) (f : String → α) :
    dictKeys (nodes.map fun node => (node, f node)) = nodes := by
  simp [dictKeys, List.map_map]
  exact List.map_id nodes

theorem dictKeys_pagerank_iter (a r : Dict (List String)) (nodes : List String)
    (alpha : ℚ) (n : ℕ) (scores : Dict ℚ) :
    dictKeys (pagerank_iter a r nodes alpha n scores) = nodes :=
  dictKeys_map_pair nodes _

theorem dictKeys_pagerank_loop (a r : Dict (List String)) (nodes : List String)
    (alpha tol : ℚ) (n : ℕ) :
    ∀ (fuel : ℕ) (scores : Dict ℚ), dictKeys scores = nodes →
      dictKeys (pagerank_loop a r nodes alpha tol n fuel scores) = nodes := by
  intro fuel
  induction fuel with
  | zero => intro scores h; exact h
  | succ f ih =>
    intro scores h
    rw [pagerank_loop]
    split
    · exact dictKeys_pagerank_iter a r nodes alpha n scores
    · exact ih _ (dictKeys_pagerank_iter a r nodes alpha n scores)

theorem mem_dictKeys_compute_pagerank (a r : Dict (List String))
    (alpha tol : ℚ) (mi : ℕ) (k : String)
    (h : k ∈ dictKeys (compute_pagerank a r alpha mi tol)) :
    k ∈ dictKeys a := by
  unfold compute_pagerank at h
  dsimp only at h
  split at h
  · simp [dictKeys] at h
  · rw [dictKeys_pagerank_loop a r (dictKeys a) alpha tol _ mi _
      (dictKeys_map_pair _ _)] at h
    exact h

theorem pagerank_scores_buildFiles (getter : String → Fetch) (nm : Dict String)
    (files : List String) :
    ∀ st : GraphIndexState,
      (buildFiles getter nm st files).1.pagerank_scores = st.pagerank_scores := by
  induction files with
  | nil => intro st; rfl
  | cons fp rest ih =>
    intro st
    rw [buildFiles]
    cases hpf : processFile getter nm st fp with
    | mk st1 aborted =>
      have hfold : ∀ (wl : List (String × String × ℕ)) (s : GraphIndexState),
          (wl.foldl (fun s t => processLink nm fp s t.1) s).pagerank_scores =
            s.pagerank_scores := by
        intro wl
        induction wl with
        | nil => intro s; rfl
        | cons hd tl ihw =>
          intro s
          rw [List.foldl_cons, ihw]
          unfold processLink
          cases resolve_link hd.1 nm with
          | none => rfl
          | some tp =>
            dsimp only
            split
            · rfl
            · split <;> rfl
      have hps : st1.pagerank_scores = st.pagerank_scores := by
        unfold processFile at hpf
        cases hg : getter fp with
        | fatal => rw [hg] at hpf; cases hpf; rfl
        | exc => rw [hg] at hpf; cases hpf; rfl
        | notStr => rw [hg] at hpf; cases hpf; rfl
        | ok content =>
          rw [hg] at hpf
          dsimp only at hpf
          cases hpf
          simp [hfold]
      cases aborted with
      | true => exact hps
      | false => rw [ih st1, hps]

/-- C5: lookups on a path outside the supplied vault file list hit none of
the built maps. -/
theorem build_unknown_path (st0 : GraphIndexState) (all_files : List String)
    (getter : String → Fetch) (p : String) (hp : p ∉ all_files) :
    lookupStr (build st0 all_files getter).1.adjacency p = none ∧
      lookupStr (build st0 all_files getter).1.reverse_adj p = none ∧
      lookupStr (build st0 all_files getter).1.pagerank_scores p = none ∧
      lookupStr (build st0 all_files getter).1.metadata_cache p = none := by
  unfold build
  set cleared : GraphIndexState :=
    { st0 with
      adjacency := [], reverse_adj := [], pagerank_scores := [],
      metadata_cache := [], all_files := all_files } with hcleared
  set md := all_files.filter fun f =>
    strEndsWith f ".md" && should_index st0.exclude_paths f with hmd
  have hpmd : p ∉ md := fun hm => hp (List.mem_of_mem_filter hm)
  have hkf := keysFrom_buildFiles getter (build_name_to_path_map md) md md
    (fun f hf => hf)
    (fun v hv => build_name_to_path_map_values md v hv)
    cleared ⟨by simp [hcleared, dictKeys], by simp [hcleared, dictKeys],
      by simp [hcleared, dictKeys]⟩
  cases hbf : buildFiles getter (build_name_to_path_map md) cleared md with
  | mk st1 aborted =>
    rw [hbf] at hkf
    obtain ⟨hka, hkr, hkm⟩ := hkf
    have hla : lookupStr st1.adjacency p = none :=
      lookupStr_eq_none _ _ (fun hm => hpmd (hka p hm))
    have hlr : lookupStr st1.reverse_adj p = none :=
      lookupStr_eq_none _ _ (fun hm => hpmd (hkr p hm))
    have hlm : lookupStr st1.metadata_cache p = none :=
      lookupStr_eq_none _ _ (fun hm => hpmd (hkm p hm))
    cases aborted with
    | true =>
      dsimp only
      rw [hbf]
      have hps : st1.pagerank_scores = cleared.pagerank_scores := by
        have := pagerank_scores_buildFiles getter (build_name_to_path_map md) md cleared
        rw [hbf] at this
        exact this
      refine ⟨hla, hlr, ?_, hlm⟩
      rw [hps]
      simp [hcleared, lookupStr]
    | false =>
      dsimp only
      rw [hbf]
      dsimp only
      refine ⟨hla, hlr, ?_, hlm⟩
      refine lookupStr_eq_none _ _ (fun hm => ?_)
      have := mem_dictKeys_compute_pagerank st1.adjacency st1.reverse_adj
        (85 / 100) (1 / 1000000) 100 p (by
          simpa [compute_pagerank_default] using hm)
      exact hpmd (hka p this)

/-- C5: for every path not present in the built index, no lookup fails:
`get_backlinks` and `get_forward_links` return empty lists, `get_pagerank`
returns `0.0`, and `get_metadata` returns the empty-defaults record. -/
theorem unknown_path_lookups_default (st0 : GraphIndexState)
    (all_files : List String) (getter : String → Fetch) (p : String)
    (hp : p ∉ all_files) :
    get_backlinks (build st0 all_files getter).1 p = [] ∧
      get_forward_links (build st0 all_files getter).1 p = [] ∧
      get_pagerank (build st0 all_files getter).1 p = 0 ∧
      get_metadata (build st0 all_files getter).1 p = Metadata.empty := by
  obtain ⟨ha, hr, hs, hm⟩ := build_unknown_path st0 all_files getter p hp
  refine ⟨?_, ?_, ?_, ?_⟩
  · simp [get_backlinks, dictGetD, hr]
  · simp [get_forward_links, dictGetD, ha]
  · simp [get_pagerank, dictGetD, hs]
  · simp [get_metadata, dictGetD, hm]

/-- Witness for C5 at a concrete vault. -/
theorem unknown_path_lookups_default_witness :
    ("zzz.md" ∉ ["A.md"] ∧
      get_backlinks (build initIndex ["A.md"] fun _ => Fetch.ok "hi").1 "zzz.md" = [] ∧
      get_forward_links (build initIndex ["A.md"] fun _ => Fetch.ok "hi").1 "zzz.md" = [] ∧
      get_pagerank (build initIndex ["A.md"] fun _ => Fetch.ok "hi").1 "zzz.md" = 0 ∧
      get_metadata (build initIndex ["A.md"] fun _ => Fetch.ok "hi").1 "zzz.md" =
        Metadata.empty) := by
  refine ⟨by decide, ?_⟩
  have := unknown_path_lookups_default initIndex ["A.md"]
    (fun _ => Fetch.ok "hi") "zzz.md" (by decide)
  exact ⟨this.1, this.2.1, this.2.2.1, this.2.2.2⟩

theorem foldl_condAdd (P : String → Prop) [DecidablePred P] (g : String → ℚ)
    (l : List String) :
    ∀ init : ℚ,
      l.foldl (fun acc src => if P src then acc + g src else acc) init =
        init + (l.map fun src => if P src then g src else 0).sum := by
  induction l with
  | nil => intro init; simp
  | cons hd tl ih =>
    intro init
    rw [List.foldl_cons, ih]
    by_cases h : P hd
    · simp [h, add_assoc]
    · simp [h]

theorem rank_sum_src_eq_spec (adjacency : Dict (List String)) (scores : Dict ℚ)
    (bl : List String) :
    rank_sum_src adjacency scores bl =
      (bl.map fun src =>
        if 0 < outDegreeSpec adjacency src then
          dictGetD scores src 0 / (outDegreeSpec adjacency src : ℚ)
        else 0).sum := by
  unfold rank_sum_src outDegreeSpec
  have h := foldl_condAdd
    (fun src => 0 < (dictGetD adjacency src []).length)
    (fun src => dictGetD scores src 0 / ((dictGetD adjacency src []).length : ℚ))
    bl 0
  simp only [zero_add] at h
  exact h

theorem pagerank_iter_eq_spec (adjacency reverse_adj : Dict (List String))
    (nodes : List String) (alpha : ℚ) (n : ℕ) (scores : Dict ℚ) :
    pagerank_iter adjacency reverse_adj nodes alpha n scores =
      pagerankSpecStep adjacency reverse_adj nodes alpha n scores := by
  unfold pagerank_iter pagerankSpecStep
  apply List.map_congr_left
  intro node _
  rw [rank_sum_src_eq_spec]

theorem pagerank_loop_eq_spec (adjacency reverse_adj : Dict (List String))
    (nodes : List String) (alpha tol : ℚ) (n : ℕ) :
    ∀ (fuel : ℕ) (scores : Dict ℚ),
      pagerank_loop adjacency reverse_adj nodes alpha tol n fuel scores =
        pagerankSpecLoop adjacency reverse_adj nodes alpha tol n fuel scores := by
  intro fuel
  induction fuel with
  | zero => intro scores; rfl
  | succ k ih =>
    intro scores
    rw [pagerank_loop, pagerankSpecLoop]
    rw [pagerank_iter_eq_spec]
    simp only [pagerank_l1diff]
    split
    · rfl
    · exact ih _

/-- C4: `compute_pagerank` with its defaults is exactly the spec-described
synchronous power iteration — uniform 1/N start, per-node update rule
`(1-α)/N + α Σ score/outDegree` over backlinks with positive out-degree,
α = 0.85, L1 stopping tolerance 1e-6, 100-iteration cap — and an empty
graph yields an empty score map. -/
theorem compute_pagerank_refines_spec :
    (∀ adjacency reverse_adj : Dict (List String),
      compute_pagerank_default adjacency reverse_adj =
        pagerankSpec adjacency reverse_adj) ∧
      (∀ (reverse_adj : Dict (List String)) (alpha tol : ℚ) (mi : ℕ),
        compute_pagerank [] reverse_adj alpha mi tol = []) := by
  constructor
  · intro adjacency reverse_adj
    unfold compute_pagerank_default compute_pagerank pagerankSpec
    dsimp only
    by_cases h : dictKeys adjacency = []
    · simp [h]
    · have hl : (dictKeys adjacency).length ≠ 0 := fun hh => h (List.length_eq_zero.mp hh)
      rw [if_neg hl, if_neg h]
      exact pagerank_loop_eq_spec _ _ _ _ _ _ _ _
  · intro reverse_adj alpha tol mi
    rfl

/-! ### PageRank mass conservation (C1) -/

theorem dictGetD_map_pair (nodes : List String) (f : String → ℚ) (x : String)
    (hx : x ∈ nodes) : dictGetD (nodes.map fun y => (y, f y)) x 0 = f x := by
  induction nodes with
  | nil => simp at hx
  | cons y0 tl ih =>
    by_cases h : y0 = x
    · subst h
      simp [dictGetD, lookupStr]
    · have hx2 : x ∈ tl := by
        rcases List.mem_cons.mp hx with hh | hh
        · exact absurd hh.symm h
        · exact hh
      simpa [dictGetD, lookupStr, h] using ih hx2

theorem sumValues_map_pair (nodes : List String) (f : String → ℚ) :
    sumValues (nodes.map fun y => (y, f y)) = (nodes.map f).sum := by
  simp [sumValues, List.map_map]
  rfl

theorem sum_rank_contrib (a r : Dict (List String)) (nodes : List String)
    (hnodes : nodes = dictKeys a) (hnd : nodes.Nodup)
    (hvaN : ∀ x : String, (dictGetD a x []).Nodup)
    (hvrN : ∀ x : String, (dictGetD r x []).Nodup)
    (hmirror : ∀ x y : String, y ∈ dictGetD a x [] ↔ x ∈ dictGetD r y [])
    (hmin : ∀ x ∈ nodes, 1 ≤ (dictGetD a x []).length)
    (hclosed : ∀ x ∈ nodes, ∀ t ∈ dictGetD a x [], t ∈ nodes)
    (f : String → ℚ) (hsum : (nodes.map f).sum = 1) :
    (nodes.map fun node =>
      rank_sum_src a (nodes.map fun y => (y, f y)) (dictGetD r node [])).sum = 1 := by
  classical
  set scores : Dict ℚ := nodes.map fun y => (y, f y) with hscores
  set g : String → ℚ := fun src =>
    if 0 < (dictGetD a src []).length then
      dictGetD scores src 0 / ((dictGetD a src []).length : ℚ)
    else 0 with hg
  have hrank : ∀ node : String,
      rank_sum_src a scores (dictGetD r node []) =
        ((dictGetD r node []).map g).sum := by
    intro node
    rw [rank_sum_src_eq_spec]
    rfl
  set N : Finset String := nodes.toFinset with hN
  have hmemN : ∀ x : String, x ∈ N ↔ x ∈ nodes := by
    intro x; simp [hN]
  -- g vanishes outside the node set
  have hg0 : ∀ src : String, src ∉ nodes → g src = 0 := by
    intro src hsrc
    rw [hg]
    dsimp only
    rw [if_neg]
    intro hpos
    apply hsrc
    rw [hnodes]
    rw [mem_dictKeys_iff_lookup]
    unfold dictGetD at hpos
    cases hl : lookupStr a src
    · rw [hl] at hpos; simp at hpos
    · simp [hl]
  -- convert the outer list sum to a Finset sum
  have houter : ∀ F : String → ℚ, (nodes.map F).sum = ∑ x ∈ N, F x := by
    intro F
    rw [hN, List.sum_toFinset F hnd]
  -- inner sums as Finset sums over N
  have hinner : ∀ node : String,
      ((dictGetD r node []).map g).sum =
        ∑ src ∈ N, if src ∈ dictGetD r node [] then g src else 0 := by
    intro node
    rw [← List.sum_toFinset g (hvrN node)]
    have h1 : (∑ src ∈ N, if src ∈ dictGetD r node [] then g src else 0) =
        ∑ src ∈ N, if src ∈ (dictGetD r node []).toFinset then g src else 0 := by
      apply Finset.sum_congr rfl
      intro src _
      by_cases h : src ∈ dictGetD r node []
      · rw [if_pos h, if_pos (List.mem_toFinset.mpr h)]
      · rw [if_neg h, if_neg (fun hh => h (List.mem_toFinset.mp hh))]
    rw [h1, Finset.sum_ite_mem]
    symm
    apply Finset.sum_subset Finset.inter_subset_right
    intro src hsrc hnot
    apply hg0
    intro hmem
    exact hnot (Finset.mem_inter.mpr ⟨(hmemN src).mpr hmem, hsrc⟩)
  calc (nodes.map fun node => rank_sum_src a scores (dictGetD r node [])).sum
      = ∑ node ∈ N, ((dictGetD r node []).map g).sum := by
        rw [houter]
        apply Finset.sum_congr rfl
        intro node _
        rw [hrank]
    _ = ∑ node ∈ N, ∑ src ∈ N, if src ∈ dictGetD r node [] then g src else 0 := by
        apply Finset.sum_congr rfl
        intro node _
        rw [hinner]
    _ = ∑ src ∈ N, ∑ node ∈ N, if src ∈ dictGetD r node [] then g src else 0 :=
        Finset.sum_comm
    _ = ∑ src ∈ N, ∑ node ∈ N, if node ∈ dictGetD a src [] then g src else 0 := by
        apply Finset.sum_congr rfl
        intro src _
        apply Finset.sum_congr rfl
        intro node _
        by_cases h : src ∈ dictGetD r node []
        · rw [if_pos h, if_pos ((hmirror src node).mpr h)]
        · rw [if_neg h, if_neg (fun hh => h ((hmirror src node).mp hh))]
    _ = ∑ src ∈ N, ((dictGetD a src []).length : ℚ) * g src := by
        apply Finset.sum_congr rfl
        intro src hsrc
        have hNdup := hvaN src
        calc ∑ node ∈ N, (if node ∈ dictGetD a src [] then g src else 0)
            = ∑ node ∈ N, (if node ∈ (dictGetD a src []).toFinset then g src else 0) := by
              apply Finset.sum_congr rfl
              intro node _
              by_cases h : node ∈ dictGetD a src []
              · rw [if_pos h, if_pos (List.mem_toFinset.mpr h)]
              · rw [if_neg h, if_neg (fun hh => h (List.mem_toFinset.mp hh))]
          _ = ∑ _node ∈ N ∩ (dictGetD a src []).toFinset, g src :=
              Finset.sum_ite_mem N _ _
          _ = (N ∩ (dictGetD a src []).toFinset).card • g src := Finset.sum_const _
          _ = ((dictGetD a src []).length : ℚ) * g src := by
              have hintEq : N ∩ (dictGetD a src []).toFinset =
                  (dictGetD a src []).toFinset := by
                apply Finset.inter_eq_right.mpr
                intro t ht
                rw [hmemN]
                exact hclosed src ((hmemN src).mp hsrc) t (List.mem_toFinset.mp ht)
              rw [hintEq, List.toFinset_card_of_nodup hNdup, nsmul_eq_mul]
    _ = ∑ src ∈ N, f src := by
        apply Finset.sum_congr rfl
        intro src hsrc
        have hpos : 0 < (dictGetD a src []).length := hmin src ((hmemN src).mp hsrc)
        rw [hg]
        dsimp only
        rw [if_pos hpos]
        rw [hscores, dictGetD_map_pair nodes f src ((hmemN src).mp hsrc)]
        rw [mul_div_cancel₀]
        exact Nat.cast_ne_zero.mpr (Nat.pos_iff_ne_zero.mp hpos)
    _ = 1 := by rw [← houter f]; exact hsum

theorem sum_pagerank_iter (a r : Dict (List String)) (nodes : List String)
    (alpha : ℚ) (hnodes : nodes = dictKeys a) (hnd : nodes.Nodup)
    (hvaN : ∀ x : String, (dictGetD a x []).Nodup)
    (hvrN : ∀ x : String, (dictGetD r x []).Nodup)
    (hmirror : ∀ x y : String, y ∈ dictGetD a x [] ↔ x ∈ dictGetD r y [])
    (hmin : ∀ x ∈ nodes, 1 ≤ (dictGetD a x []).length)
    (hclosed : ∀ x ∈ nodes, ∀ t ∈ dictGetD a x [], t ∈ nodes)
    (hne : nodes ≠ [])
    (f : String → ℚ) (hsum : (nodes.map f).sum = 1) :
    sumValues
      (pagerank_iter a r nodes alpha nodes.length (nodes.map fun y => (y, f y))) = 1 := by
  classical
  have hsumc := sum_rank_contrib a r nodes hnodes hnd hvaN hvrN hmirror hmin hclosed f hsum
  rw [show pagerank_iter a r nodes alpha nodes.length (nodes.map fun y => (y, f y)) =
    nodes.map (fun node =>
      (node, (1 - alpha) / (nodes.length : ℚ) +
        alpha * rank_sum_src a (nodes.map fun y => (y, f y)) (dictGetD r node []))) from rfl]
  rw [sumValues_map_pair]
  set N : Finset String := nodes.toFinset with hN
  have houter : ∀ F : String → ℚ, (nodes.map F).sum = ∑ x ∈ N, F x := by
    intro F
    rw [hN, List.sum_toFinset F hnd]
  rw [houter]
  have hsplit :
      (∑ node ∈ N,
        ((1 - alpha) / (nodes.length : ℚ) +
          alpha * rank_sum_src a (nodes.map fun y => (y, f y)) (dictGetD r node []))) =
      (∑ _node ∈ N, (1 - alpha) / (nodes.length : ℚ)) +
        alpha * ∑ node ∈ N,
          rank_sum_src a (nodes.map fun y => (y, f y)) (dictGetD r node []) := by
    rw [Finset.sum_add_distrib, Finset.mul_sum]
  rw [hsplit]
  have hcard : N.card = nodes.length := by
    rw [hN, List.toFinset_card_of_nodup hnd]
  have hlen : (nodes.length : ℚ) ≠ 0 := by
    have : nodes.length ≠ 0 := fun hh => hne (List.length_eq_zero.mp hh)
    exact_mod_cast this
  have hconst : (∑ _node ∈ N, (1 - alpha) / (nodes.length : ℚ)) = 1 - alpha := by
    rw [Finset.sum_const, hcard, nsmul_eq_mul, ← mul_div_assoc]
    exact mul_div_cancel_left₀ _ hlen
  have hrest : (∑ node ∈ N,
      rank_sum_src a (nodes.map fun y => (y, f y)) (dictGetD r node [])) = 1 := by
    rw [← houter]
    exact hsumc
  rw [hconst, hrest, mul_one]
  ring

theorem sum_pagerank_loop (a r : Dict (List String)) (nodes : List String)
    (alpha tol : ℚ) (hnodes : nodes = dictKeys a) (hnd : nodes.Nodup)
    (hvaN : ∀ x : String, (dictGetD a x []).Nodup)
    (hvrN : ∀ x : String, (dictGetD r x []).Nodup)
    (hmirror : ∀ x y : String, y ∈ dictGetD a x [] ↔ x ∈ dictGetD r y [])
    (hmin : ∀ x ∈ nodes, 1 ≤ (dictGetD a x []).length)
    (hclosed : ∀ x ∈ nodes, ∀ t ∈ dictGetD a x [], t ∈ nodes)
    (hne : nodes ≠ []) :
    ∀ (fuel : ℕ) (f : String → ℚ), (nodes.map f).sum = 1 →
      sumValues
        (pagerank_loop a r nodes alpha tol nodes.length fuel
          (nodes.map fun y => (y, f y))) = 1 := by
  intro fuel
  induction fuel with
  | zero =>
    intro f hsum
    rw [pagerank_loop, sumValues_map_pair]
    exact hsum
  | succ k ih =>
    intro f hsum
    rw [pagerank_loop]
    have hiter := sum_pagerank_iter a r nodes alpha hnodes hnd hvaN hvrN hmirror
      hmin hclosed hne f hsum
    have hiter_form : pagerank_iter a r nodes alpha nodes.length
        (nodes.map fun y => (y, f y)) =
      nodes.map fun y =>
        (y, (1 - alpha) / (nodes.length : ℚ) +
          alpha * rank_sum_src a (nodes.map fun z => (z, f z)) (dictGetD r y [])) := rfl
    split
    · exact hiter
    · rw [hiter_form]
      apply ih
      have := hiter
      rw [hiter_form, sumValues_map_pair] at this
      exact this

theorem sum_compute_pagerank_default (a r : Dict (List String))
    (hnd : (dictKeys a).Nodup)
    (hvaN : ∀ x : String, (dictGetD a x []).Nodup)
    (hvrN : ∀ x : String, (dictGetD r x []).Nodup)
    (hmirror : ∀ x y : String, y ∈ dictGetD a x [] ↔ x ∈ dictGetD r y [])
    (hmin : ∀ x ∈ dictKeys a, 1 ≤ (dictGetD a x []).length)
    (hclosed : ∀ x ∈ dictKeys a, ∀ t ∈ dictGetD a x [], t ∈ dictKeys a)
    (hne : dictKeys a ≠ []) :
    sumValues (compute_pagerank_default a r) = 1 := by
  unfold compute_pagerank_default compute_pagerank
  dsimp only
  have hlen : (dictKeys a).length ≠ 0 := fun hh => hne (List.length_eq_zero.mp hh)
  rw [if_neg hlen]
  have hinit : ((dictKeys a).map fun _ => 1 / ((dictKeys a).length : ℚ)).sum = 1 := by
    rw [List.map_const']
    rw [List.sum_replicate, nsmul_eq_mul]
    rw [mul_one_div, div_self (by exact_mod_cast hlen)]
  exact sum_pagerank_loop a r (dictKeys a) (85 / 100) (1 / 1000000) rfl hnd
    hvaN hvrN hmirror hmin hclosed hne 100 (fun _ => 1 / ((dictKeys a).length : ℚ)) hinit

theorem build_pagerank_eq (st0 : GraphIndexState) (all_files : List String)
    (getter : String → Fetch) (st : GraphIndexState)
    (hb : build st0 all_files getter = (st, false)) :
    st.pagerank_scores = compute_pagerank_default st.adjacency st.reverse_adj ∧
      st.built = true := by
  unfold build at hb
  dsimp only at hb
  split at hb
  · next heq =>
    exact absurd (congrArg Prod.snd hb) (by simp)
  · next st1 heq =>
    have hst : ({ st1 with
        pagerank_scores := compute_pagerank_default st1.adjacency st1.reverse_adj,
        built := true } : GraphIndexState) = st := by
      simpa using congrArg Prod.fst hb
    rw [← hst]
    exact ⟨rfl, rfl⟩

/-- C1 counterexample: a completed build in which every indexed node has at
least one resolved out-link, yet the PageRank scores sum to 3/20 rather
than 1 (far outside any floating tolerance).  The read of `B.md` raises,
so `B.md` is never indexed, while the resolved link `A.md -> B.md` still
gives `A.md` out-degree 1; the hypothesis of the claim as stated is
satisfied and its conclusion fails. -/
theorem pagerank_sum_counterexample :
    (∀ nd ∈ dictKeys (build initIndex ["A.md", "B.md"]
        (fun p => if p = "A.md" then Fetch.ok "[[B]]" else Fetch.exc)).1.adjacency,
      1 ≤ (get_forward_links (build initIndex ["A.md", "B.md"]
        (fun p => if p = "A.md" then Fetch.ok "[[B]]" else Fetch.exc)).1 nd).length) ∧
      (build initIndex ["A.md", "B.md"]
        (fun p => if p = "A.md" then Fetch.ok "[[B]]" else Fetch.exc)).2 = false ∧
      sumValues (build initIndex ["A.md", "B.md"]
        (fun p => if p = "A.md" then Fetch.ok "[[B]]" else Fetch.exc)).1.pagerank_scores =
        3 / 20 ∧
      (3 : ℚ) / 20 ≠ 1 := by
  with_unfolding_all decide

/-- C1 (amended): for every successfully completed build whose graph is
nonempty, in which every indexed node has at least one resolved out-link
and every resolved link target is itself an indexed node, the PageRank
scores sum to exactly 1. -/
theorem pagerank_sum_of_closed_build (st0 : GraphIndexState)
    (all_files : List String) (getter : String → Fetch) (st : GraphIndexState)
    (hb : build st0 all_files getter = (st, false))
    (hne : dictKeys st.adjacency ≠ [])
    (hmin : ∀ n ∈ dictKeys st.adjacency, 1 ≤ (get_forward_links st n).length)
    (hclosed : ∀ n ∈ dictKeys st.adjacency, ∀ t ∈ get_forward_links st n,
      t ∈ dictKeys st.adjacency) :
    sumValues st.pagerank_scores = 1 := by
  have hmw := mirror_wf_build st0 all_files getter
  rw [hb] at hmw
  have hmir : Mirror st := hmw.1
  have hwf := hmw.2
  unfold IndexWF at hwf
  obtain ⟨hka, _, hva, hvr⟩ := hwf
  obtain ⟨hps, _⟩ := build_pagerank_eq st0 all_files getter st hb
  rw [hps]
  exact sum_compute_pagerank_default st.adjacency st.reverse_adj hka
    (fun x => hva x) (fun x => hvr x) (fun x y => hmir x y) hmin hclosed hne

/-- Witness for the amended C1 at a concrete two-note vault
(`a.md` and `b.md` linking to each other). -/
theorem pagerank_sum_of_closed_build_witness :
    sumValues (build initIndex ["a.md", "b.md"]
      (fun p => if p = "a.md" then Fetch.ok "[[b]]" else Fetch.ok "[[a]]")).1.pagerank_scores =
      1 :=
  pagerank_sum_of_closed_build initIndex ["a.md", "b.md"]
    (fun p => if p = "a.md" then Fetch.ok "[[b]]" else Fetch.ok "[[a]]")
    (build initIndex ["a.md", "b.md"]
      (fun p => if p = "a.md" then Fetch.ok "[[b]]" else Fetch.ok "[[a]]")).1
    (by with_unfolding_all decide) (by with_unfolding_all decide)
    (by with_unfolding_all decide) (by with_unfolding_all decide)

/-- C3: the code contradicts the claim at this input.  The first call
builds the singleton from `A.md` successfully (a built index with one
metadata entry).  A forced rebuild whose `file_getter` raises an
uncatchable (`BaseException`-level) failure aborts with the propagating
exception as its cause, but the global singleton now holds a fresh
half-built index — cleared maps, `built = false` — because
`get_graph_index` replaces the global before `build` runs and `build`
clears the maps in place before processing; the previous state is not
left unchanged as the claim requires. -/
theorem build_failure_discards_previous_index :
    (get_graph_index none (fun _ => Fetch.ok "hello") ["A.md"] none false).2 = false ∧
      ((get_graph_index none (fun _ => Fetch.ok "hello") ["A.md"] none false).1.map
        GraphIndexState.built) = some true ∧
      ((get_graph_index none (fun _ => Fetch.ok "hello") ["A.md"] none false).1.map
        fun s => s.metadata_cache.length) = some 1 ∧
      (get_graph_index
        (get_graph_index none (fun _ => Fetch.ok "hello") ["A.md"] none false).1
        (fun _ => Fetch.fatal) ["A.md"] none true).2 = true ∧
      (get_graph_index
        (get_graph_index none (fun _ => Fetch.ok "hello") ["A.md"] none false).1
        (fun _ => Fetch.fatal) ["A.md"] none true).1 ≠
        (get_graph_index none (fun _ => Fetch.ok "hello") ["A.md"] none false).1 ∧
      ((get_graph_index
        (get_graph_index none (fun _ => Fetch.ok "hello") ["A.md"] none false).1
        (fun _ => Fetch.fatal) ["A.md"] none true).1.map
        fun s => (s.built, s.metadata_cache.length)) = some (false, 0) := by
  with_unfolding_all decide

/-! ### Traversal bounds and filtering (C7, C8) -/

theorem traverseLoop_bounds (idx : GraphIndexState)
    (flt : Option (String → Metadata → Bool)) (getter : String → Option String)
    (max_hops max_nodes snippet_length : ℕ) :
    ∀ (fuel : ℕ) (queue : List (String × ℕ)) (visited : List String)
      (nodes : List (String × TravNode)) (edges : List TravEdge),
      nodes.length ≤ max_nodes →
      (∀ e ∈ queue, e.2 ≤ max_hops) →
      (∀ kv ∈ nodes, kv.2.hop_distance ≤ max_hops) →
      (traverseLoop idx flt getter max_hops max_nodes snippet_length fuel
          queue visited nodes edges).1.length ≤ max_nodes ∧
        ∀ kv ∈ (traverseLoop idx flt getter max_hops max_nodes snippet_length fuel
          queue visited nodes edges).1, kv.2.hop_distance ≤ max_hops := by
  intro fuel
  induction fuel with
  | zero =>
    intro queue visited nodes edges hlen _ hn
    rw [traverseLoop]
    exact ⟨hlen, hn⟩
  | succ fuel1 ih =>
    intro queue visited nodes edges hlen hq hn
    cases queue with
    | nil =>
      rw [traverseLoop]
      exact ⟨hlen, hn⟩
    | cons head rest =>
      obtain ⟨p, h⟩ := head
      have hrest : ∀ e ∈ rest, e.2 ≤ max_hops := fun e he => hq e (by simp [he])
      have hh : h ≤ max_hops := hq (p, h) (by simp)
      rw [traverseLoop]
      dsimp only
      split
      case isTrue => exact ⟨hlen, hn⟩
      case isFalse hguard =>
        have hlt : nodes.length < max_nodes := not_le.mp hguard
        split
        case isTrue => exact ih rest visited nodes edges hlen hrest hn
        case isFalse =>
          split
          next => exact ih rest (p :: visited) nodes edges hlen hrest hn
          next =>
            split
            next => exact ih rest (p :: visited) nodes edges hlen hrest hn
            next content heq =>
              have hlen1 : (nodes ++
                  [(p, mkTravNode (get_metadata idx p) p
                    (snippetOf content snippet_length) h)]).length ≤ max_nodes := by
                simp only [List.length_append, List.length_cons, List.length_nil]
                omega
              have hn1 : ∀ kv ∈ nodes ++
                  [(p, mkTravNode (get_metadata idx p) p
                    (snippetOf content snippet_length) h)],
                  kv.2.hop_distance ≤ max_hops := by
                intro kv hkv
                rcases List.mem_append.mp hkv with hkv | hkv
                · exact hn kv hkv
                · simp only [List.mem_singleton] at hkv
                  subst hkv
                  simpa [mkTravNode] using hh
              split
              next hhop =>
                apply ih
                · exact hlen1
                · intro e he
                  rcases List.mem_append.mp he with he | he
                  · rcases List.mem_append.mp he with he | he
                    · exact hrest e he
                    · rcases List.mem_map.mp he with ⟨t, _, het⟩
                      subst het
                      simpa using hhop
                  · rcases List.mem_map.mp he with ⟨t, _, het⟩
                    subst het
                    simpa using hhop
                · exact hn1
              next hhop => exact ih rest (p :: visited) _ edges hlen1 hrest hn1

/-- C7: every traversal returns at most `max_nodes` nodes, and every
returned node's hop distance is at most `max_hops` (neighbours are only
expanded from nodes at distance strictly below `max_hops`, and only while
the result set is below `max_nodes`). -/
theorem traversal_bounds (start : String) (idx : GraphIndexState)
    (flt : Option (String → Metadata → Bool)) (getter : String → Option String)
    (max_hops max_nodes snippet_length fuel : ℕ) :
    (traverse_with_index start idx flt getter max_hops max_nodes snippet_length
        fuel).nodes.length ≤ max_nodes ∧
      ∀ nd ∈ (traverse_with_index start idx flt getter max_hops max_nodes
        snippet_length fuel).nodes, nd.hop_distance ≤ max_hops := by
  have hmain := traverseLoop_bounds idx flt getter max_hops max_nodes snippet_length
    fuel [(start, 0)] [] [] []
    (by simp) (by intro e he; simp at he; simp [he]) (by intro kv hkv; simp at hkv)
  constructor
  · simpa [traverse_with_index] using hmain.1
  · intro nd hnd
    simp only [traverse_with_index, List.mem_map] at hnd
    obtain ⟨kv, hkv, hnd2⟩ := hnd
    subst hnd2
    exact hmain.2 kv hkv

/-! ### C8: filtered nodes are skipped and not expanded -/

theorem traverseLoop_nodes_pass (idx : GraphIndexState)
    (f : String → Metadata → Bool) (getter : String → Option String)
    (max_hops max_nodes snippet_length : ℕ) :
    ∀ (fuel : ℕ) (queue : List (String × ℕ)) (visited : List String)
      (nodes : List (String × TravNode)) (edges : List TravEdge),
      (∀ kv ∈ nodes, f kv.1 (get_metadata idx kv.1) = true ∧ kv.2.path = kv.1) →
      ∀ kv ∈ (traverseLoop idx (some f) getter max_hops max_nodes snippet_length
          fuel queue visited nodes edges).1,
        f kv.1 (get_metadata idx kv.1) = true ∧ kv.2.path = kv.1 := by
  intro fuel
  induction fuel with
  | zero =>
    intro queue visited nodes edges hn
    rw [traverseLoop]
    exact hn
  | succ fuel1 ih =>
    intro queue visited nodes edges hn
    cases queue with
    | nil =>
      rw [traverseLoop]
      exact hn
    | cons head rest =>
      obtain ⟨p, h⟩ := head
      rw [traverseLoop]
      dsimp only
      split
      case isTrue => exact hn
      case isFalse hguard =>
        split
        case isTrue => exact ih rest visited nodes edges hn
        case isFalse =>
          split
          next hcond => exact ih rest (p :: visited) nodes edges hn
          next hcond =>
            split
            next => exact ih rest (p :: visited) nodes edges hn
            next content heq =>
              have hpass : f p (get_metadata idx p) = true := by
                simpa using hcond
              have hn1 : ∀ kv ∈ nodes ++
                  [(p, mkTravNode (get_metadata idx p) p
                    (snippetOf content snippet_length) h)],
                  f kv.1 (get_metadata idx kv.1) = true ∧ kv.2.path = kv.1 := by
                intro kv hkv
                rcases List.mem_append.mp hkv with hkv | hkv
                · exact hn kv hkv
                · simp only [List.mem_singleton] at hkv
                  subst hkv
                  exact ⟨hpass, rfl⟩
              split
              next hhop => exact ih _ (p :: visited) _ _ hn1
              next hhop => exact ih rest (p :: visited) _ edges hn1

theorem traverseLoop_skip_step (idx : GraphIndexState)
    (f : String → Metadata → Bool) (getter : String → Option String)
    (max_hops max_nodes snippet_length fuel : ℕ) (p : String) (h : ℕ)
    (rest : List (String × ℕ)) (visited : List String)
    (nodes : List (String × TravNode)) (edges : List TravEdge)
    (hfail : f p (get_metadata idx p) = false)
    (hroom : nodes.length < max_nodes) (hnew : p ∉ visited) :
    traverseLoop idx (some f) getter max_hops max_nodes snippet_length
        (fuel + 1) ((p, h) :: rest) visited nodes edges =
      traverseLoop idx (some f) getter max_hops max_nodes snippet_length
        fuel rest (p :: visited) nodes edges := by
  rw [traverseLoop]
  dsimp only
  rw [if_neg (not_le.mpr hroom), if_neg hnew, if_pos (by simp [hfail])]

/-- C8: with a configured filter `f`, every node in the traversal result
passes `f` on its cached metadata (so a failing node is omitted), and the
step that dequeues a failing unvisited node only marks it visited: the
result nodes, the result edges and the rest of the queue are untouched, so
no edges are emitted from it and none of its neighbours are enqueued. -/
theorem traversal_filter_skip (start p : String) (idx : GraphIndexState)
    (f : String → Metadata → Bool) (getter : String → Option String)
    (max_hops max_nodes snippet_length fuel h : ℕ)
    (rest : List (String × ℕ)) (visited : List String)
    (nodes : List (String × TravNode)) (edges : List TravEdge)
    (hfail : f p (get_metadata idx p) = false)
    (hroom : nodes.length < max_nodes) (hnew : p ∉ visited) :
    (∀ nd ∈ (traverse_with_index start idx (some f) getter max_hops max_nodes
        snippet_length fuel).nodes,
        f nd.path (get_metadata idx nd.path) = true) ∧
      traverseLoop idx (some f) getter max_hops max_nodes snippet_length
          (fuel + 1) ((p, h) :: rest) visited nodes edges =
        traverseLoop idx (some f) getter max_hops max_nodes snippet_length
          fuel rest (p :: visited) nodes edges := by
  constructor
  · intro nd hnd
    simp only [traverse_with_index, List.mem_map] at hnd
    obtain ⟨kv, hkv, hnd2⟩ := hnd
    have hkv2 := traverseLoop_nodes_pass idx f getter max_hops max_nodes
      snippet_length fuel [(start, 0)] [] [] []
      (by intro kv hkv; simp at hkv) kv hkv
    subst hnd2
    rw [hkv2.2]
    exact hkv2.1
  · exact traverseLoop_skip_step idx f getter max_hops max_nodes snippet_length
      fuel p h rest visited nodes edges hfail hroom hnew

/-- Concrete instance of the C8 theorem: the filter rejecting exactly
the path b.md skips it without touching the result or the queue. -/
theorem traversal_filter_skip_witness :
    (∀ nd ∈ (traverse_with_index "a.md" initIndex
        (some (fun q _ => q != "b.md")) (fun _ => some "hi") 1 10 200 3).nodes,
        (fun q _ => q != "b.md") nd.path (get_metadata initIndex nd.path)
          = true) ∧
      traverseLoop initIndex (some (fun q _ => q != "b.md"))
          (fun _ => some "hi") 1 10 200 (3 + 1) [("b.md", 0)] [] [] [] =
        traverseLoop initIndex (some (fun q _ => q != "b.md"))
          (fun _ => some "hi") 1 10 200 3 [] ["b.md"] [] [] :=
  traversal_filter_skip "a.md" "b.md" initIndex (fun q _ => q != "b.md")
    (fun _ => some "hi") 1 10 200 3 0 [] [] [] []
    (by decide) (by decide) (by simp)

/-! ### C9: the recency score -/

theorem parse_date_nil : parse_date "" = none := rfl

theorem exp_neg_one_gt : (0.367 : ℝ) < Real.exp (-1) := by
  rw [Real.exp_neg]
  have hpos := Real.exp_pos 1
  have hmul : Real.exp 1 * (Real.exp 1)⁻¹ = 1 := mul_inv_cancel₀ (ne_of_gt hpos)
  nlinarith [hmul, Real.exp_one_gt_d9, Real.exp_one_lt_d9, inv_pos.mpr hpos]

theorem exp_neg_one_lt : Real.exp (-1) < (0.369 : ℝ) := by
  rw [Real.exp_neg]
  have hpos := Real.exp_pos 1
  have hmul : Real.exp 1 * (Real.exp 1)⁻¹ = 1 := mul_inv_cancel₀ (ne_of_gt hpos)
  nlinarith [hmul, Real.exp_one_gt_d9, Real.exp_one_lt_d9, inv_pos.mpr hpos]

/-- C9: the recency score is the exponential decay
exp(-days_old / decay_days) clamped to the interval from 0 to 1: a
missing, empty or unparseable created date scores exactly 0.5, a negative
age (future date) scores exactly 1, age zero scores exactly 1, every
score lies between 0 and 1, the default decay_days is 10.25, and at
days_old = decay_days the score is within 0.001 of 0.368 (about 1/e). -/
theorem recency_score_spec (cfg : RankingConfig) (now : PyDateTime)
    (s : String) (d : ℤ) (hdecay : 0 < cfg.decay_days) :
    compute_recency_score cfg now none = 0.5 ∧
    compute_recency_score cfg now (some "") = 0.5 ∧
    (parse_date s = none → compute_recency_score cfg now (some s) = 0.5) ∧
    (∀ dt, parse_date s = some dt → timedeltaDays dt now < 0 →
      compute_recency_score cfg now (some s) = 1) ∧
    (∀ dt, parse_date s = some dt → 0 ≤ timedeltaDays dt now →
      compute_recency_score cfg now (some s)
        = max 0 (min 1
            (Real.exp (-(timedeltaDays dt now : ℝ) / cfg.decay_days)))) ∧
    recencyOfDays cfg 0 = 1 ∧
    0 ≤ recencyOfDays cfg d ∧
    recencyOfDays cfg d ≤ 1 ∧
    defaultRankingConfig.decay_days = 10.25 ∧
    ((d : ℝ) = cfg.decay_days →
      |recencyOfDays cfg d - 0.368| < 1 / 1000) := by
  refine ⟨rfl, by simp [compute_recency_score], ?_, ?_, ?_, ?_,
    le_max_left 0 _, max_le (by norm_num) (min_le_left 1 _), rfl, ?_⟩
  · intro hp
    by_cases hs : s = ""
    · simp [compute_recency_score, hs]
    · simp [compute_recency_score, hs, hp]
  · intro dt hdt hneg
    have hs : s ≠ "" := by
      intro he
      rw [he, parse_date_nil] at hdt
      exact Option.noConfusion hdt
    simp [compute_recency_score, hs, hdt, hneg]
  · intro dt hdt hnn
    have hs : s ≠ "" := by
      intro he
      rw [he, parse_date_nil] at hdt
      exact Option.noConfusion hdt
    have hneg : ¬ timedeltaDays dt now < 0 := not_lt.mpr hnn
    simp [compute_recency_score, hs, hdt, hneg, recencyOfDays]
  · norm_num [recencyOfDays, Real.exp_zero]
  · intro hd
    have hle1 : Real.exp (-1) ≤ 1 :=
      le_of_lt (lt_trans exp_neg_one_lt (by norm_num))
    have h1 : recencyOfDays cfg d = Real.exp (-1) := by
      unfold recencyOfDays
      rw [hd, neg_div, div_self (ne_of_gt hdecay)]
      rw [min_eq_right hle1, max_eq_right (le_of_lt (Real.exp_pos (-1)))]
    rw [h1, abs_lt]
    constructor
    · linarith [exp_neg_one_gt]
    · linarith [exp_neg_one_lt]

/-- Concrete instance of the C9 theorem at decay_days = 1, age 1 day,
and the unparseable date string garbage. -/
theorem recency_score_spec_witness :
    compute_recency_score ⟨true, true, 0.340, 1, 0.85⟩
      ⟨2024, 1, 15, 0, 0, 0⟩ none = 0.5 ∧
    compute_recency_score ⟨true, true, 0.340, 1, 0.85⟩
      ⟨2024, 1, 15, 0, 0, 0⟩ (some "") = 0.5 ∧
    (parse_date "garbage" = none →
      compute_recency_score ⟨true, true, 0.340, 1, 0.85⟩
        ⟨2024, 1, 15, 0, 0, 0⟩ (some "garbage") = 0.5) ∧
    (∀ dt, parse_date "garbage" = some dt →
      timedeltaDays dt ⟨2024, 1, 15, 0, 0, 0⟩ < 0 →
      compute_recency_score ⟨true, true, 0.340, 1, 0.85⟩
        ⟨2024, 1, 15, 0, 0, 0⟩ (some "garbage") = 1) ∧
    (∀ dt, parse_date "garbage" = some dt →
      0 ≤ timedeltaDays dt ⟨2024, 1, 15, 0, 0, 0⟩ →
      compute_recency_score ⟨true, true, 0.340, 1, 0.85⟩
        ⟨2024, 1, 15, 0, 0, 0⟩ (some "garbage")
        = max 0 (min 1
            (Real.exp (-(timedeltaDays dt ⟨2024, 1, 15, 0, 0, 0⟩ : ℝ) /
              (⟨true, true, 0.340, 1, 0.85⟩ : RankingConfig).decay_days)))) ∧
    recencyOfDays ⟨true, true, 0.340, 1, 0.85⟩ 0 = 1 ∧
    0 ≤ recencyOfDays ⟨true, true, 0.340, 1, 0.85⟩ 1 ∧
    recencyOfDays ⟨true, true, 0.340, 1, 0.85⟩ 1 ≤ 1 ∧
    defaultRankingConfig.decay_days = 10.25 ∧
    (((1 : ℤ) : ℝ) = (⟨true, true, 0.340, 1, 0.85⟩ : RankingConfig).decay_days →
      |recencyOfDays ⟨true, true, 0.340, 1, 0.85⟩ 1 - 0.368| < 1 / 1000) :=
  recency_score_spec ⟨true, true, 0.340, 1, 0.85⟩ ⟨2024, 1, 15, 0, 0, 0⟩
    "garbage" 1 one_pos

/-! ### C10: an unparseable date bound is silently ignored -/

/-- C10: when a configured date bound is itself an unparseable nonempty
string, the bound is silently ignored: a note whose own date is present
and parseable passes the date check for every value of its date, for
each of the four bounds, and a filter configured with only such a bound
matches every note with a parseable created date. -/
theorem unparseable_bound_ignored (b s : String) (m : Option String)
    (path : String) (md : Metadata) (dt : PyDateTime)
    (hb : parse_date b = none) (hbne : b ≠ "")
    (hs : parse_date s = some dt) (hmd : md.created = some s) :
    check_dates { emptyFilterConfig with created_after := some b }
        (some s) m = true ∧
    check_dates { emptyFilterConfig with created_before := some b }
        (some s) m = true ∧
    check_dates { emptyFilterConfig with modified_after := some b }
        m (some s) = true ∧
    check_dates { emptyFilterConfig with modified_before := some b }
        m (some s) = true ∧
    filter_matches { emptyFilterConfig with created_after := some b }
        path md = true := by
  have hsne : s ≠ "" := by
    intro he
    rw [he, parse_date_nil] at hs
    exact Option.noConfusion hs
  have hcd : ∀ mm, check_dates { emptyFilterConfig with created_after := some b }
      (some s) mm = true := by
    intro mm
    simp [check_dates, emptyFilterConfig, optTruthyStr, hb, hbne, hsne, hs]
  refine ⟨hcd m, ?_, ?_, ?_, ?_⟩
  · simp [check_dates, emptyFilterConfig, optTruthyStr, hb, hbne, hsne, hs]
  · simp [check_dates, emptyFilterConfig, optTruthyStr, hb, hbne, hsne, hs]
  · simp [check_dates, emptyFilterConfig, optTruthyStr, hb, hbne, hsne, hs]
  · simp [filter_matches, check_path, check_tags, check_frontmatter,
      optTruthyList, optTruthyDict, emptyFilterConfig, hmd]
    exact hcd md.modified

/-- Concrete instance of the C10 theorem: the unparseable bound garbage
is ignored and the note dated 2024-01-15 passes every variant. -/
theorem unparseable_bound_ignored_witness :
    check_dates { emptyFilterConfig with created_after := some "garbage" }
        (some "2024-01-15") none = true ∧
    check_dates { emptyFilterConfig with created_before := some "garbage" }
        (some "2024-01-15") none = true ∧
    check_dates { emptyFilterConfig with modified_after := some "garbage" }
        none (some "2024-01-15") = true ∧
    check_dates { emptyFilterConfig with modified_before := some "garbage" }
        none (some "2024-01-15") = true ∧
    filter_matches { emptyFilterConfig with created_after := some "garbage" }
        "a.md" ⟨[], [], some "2024-01-15", none, none, none⟩ = true :=
  unparseable_bound_ignored "garbage" "2024-01-15" none "a.md"
    ⟨[], [], some "2024-01-15", none, none, none⟩ ⟨2024, 1, 15, 0, 0, 0⟩
    (by decide) (by decide) (by decide) rfl

/-! ### C6: the name table and the resolution cascade -/

theorem char_ofNat_toNat (n : ℕ) (h : n < 55296) : (Char.ofNat n).toNat = n := by
  have hv : n.isValidChar := Or.inl h
  simp [Char.ofNat, hv, Char.ofNatAux, Char.toNat, UInt32.toNat]

theorem pyLowerChar_idem (c : Char) :
    pyLowerChar (pyLowerChar c) = pyLowerChar c := by
  unfold pyLowerChar
  by_cases h : 65 ≤ c.toNat ∧ c.toNat ≤ 90
  · rw [if_pos h]
    rw [if_neg]
    rw [char_ofNat_toNat (c.toNat + 32) (by omega)]
    omega
  · rw [if_neg h, if_neg h]

theorem map_eq_self_of_fix {f : Char → Char} :
    ∀ l : List Char, (∀ c ∈ l, f c = c) → l.map f = l := by
  intro l
  induction l with
  | nil => intro _; rfl
  | cons x rest ih =>
    intro h
    rw [List.map_cons, h x (List.mem_cons_self x rest),
      ih fun c hc => h c (List.mem_cons_of_mem x hc)]

theorem pyLower_eq_self {s : String}
    (h : ∀ c ∈ s.data, pyLowerChar c = c) : pyLower s = s := by
  obtain ⟨l⟩ := s
  exact congrArg String.mk (map_eq_self_of_fix l h)

theorem pyLowerChar_fix_of_mem_lower {s : String} {c : Char}
    (hc : c ∈ (pyLower s).data) : pyLowerChar c = c := by
  simp only [pyLower, List.mem_map] at hc
  obtain ⟨c0, _, rfl⟩ := hc
  exact pyLowerChar_idem c0

theorem mem_of_mem_splitOnChar (sep c : Char) :
    ∀ (l comp : List Char), comp ∈ splitOnChar sep l → c ∈ comp → c ∈ l := by
  intro l
  induction l with
  | nil =>
    intro comp hcomp hc
    simp [splitOnChar] at hcomp
    subst hcomp
    simp at hc
  | cons x rest ih =>
    intro comp hcomp hc
    rw [splitOnChar] at hcomp
    by_cases hx : x = sep
    · rw [if_pos hx] at hcomp
      rcases List.mem_cons.mp hcomp with h | h
      · subst h; simp at hc
      · exact List.mem_cons_of_mem x (ih comp h hc)
    · rw [if_neg hx] at hcomp
      cases hr : splitOnChar sep rest with
      | nil =>
        rw [hr] at hcomp
        simp at hcomp
        subst hcomp
        simp at hc
        exact hc ▸ List.mem_cons_self x rest
      | cons h t =>
        rw [hr] at hcomp
        rcases List.mem_cons.mp hcomp with he | he
        · subst he
          rcases List.mem_cons.mp hc with hcx | hch
          · exact hcx ▸ List.mem_cons_self x rest
          · exact List.mem_cons_of_mem x
              (ih h (by rw [hr]; exact List.mem_cons_self h t) hch)
        · exact List.mem_cons_of_mem x
            (ih comp (by rw [hr]; exact List.mem_cons_of_mem h he) hc)

theorem pathName_chars {s : String} {c : Char}
    (hc : c ∈ (pathName s).data) : c ∈ s.data := by
  unfold pathName at hc
  cases hl : ((((splitOnChar '/' s.data).map String.mk).filter
      fun p => p ≠ "" && p ≠ ".").getLast?) with
  | none => rw [hl] at hc; simp at hc
  | some a =>
    rw [hl] at hc
    simp only [Option.getD_some] at hc
    obtain ⟨hne, hx⟩ := List.mem_getLast?_eq_getLast
      (show a ∈ (((splitOnChar '/' s.data).map String.mk).filter
        fun p => p ≠ "" && p ≠ ".").getLast? from hl)
    have ha : a ∈ ((splitOnChar '/' s.data).map String.mk).filter
        fun p => p ≠ "" && p ≠ "." := hx ▸ List.getLast_mem hne
    have ha2 := List.mem_of_mem_filter ha
    obtain ⟨comp, hcomp, rfl⟩ := List.mem_map.mp ha2
    exact mem_of_mem_splitOnChar '/' c s.data comp hcomp hc

theorem replaceChar_chars {a b : Char} {s : String} {c : Char}
    (hc : c ∈ (replaceChar a b s).data) : c = b ∨ c ∈ s.data := by
  simp only [replaceChar, List.mem_map] at hc
  obtain ⟨c0, hc0, rfl⟩ := hc
  by_cases h : c0 = a
  · left; simp [h]
  · right; simpa [h] using hc0

/-- C6: the name table registers four lowercase keys for each candidate
path (the lowercased path without the md extension, its basename, and the
basename with spaces and underscores swapped each way), each mapping to
the path; resolving a raw target is the first-hit cascade over the full
normalized path, the basename, the space variant and the underscore
variant; and a target that resolves to nothing is dropped silently,
creating no edge. -/
theorem name_table_resolution (m nm : Dict String) (fp t u : String)
    (st : GraphIndexState) (hdrop : resolve_link u nm = none) :
    (∀ k ∈ [ (if strEndsWith (pyLower fp) ".md" then
          strDropRight (pyLower fp) 3 else pyLower fp),
        pathName (if strEndsWith (pyLower fp) ".md" then
          strDropRight (pyLower fp) 3 else pyLower fp),
        replaceChar ' ' '_' (pathName (if strEndsWith (pyLower fp) ".md" then
          strDropRight (pyLower fp) 3 else pyLower fp)),
        replaceChar '_' ' ' (pathName (if strEndsWith (pyLower fp) ".md" then
          strDropRight (pyLower fp) 3 else pyLower fp))],
      lookupStr (registerFile m fp) k = some fp ∧ pyLower k = k) ∧
    resolve_link t nm = (if t = "" then none else resolveCascadeSpec t nm) ∧
    processLink nm fp st u = st := by
  have hsub : (if strEndsWith (pyLower fp) ".md" then
      strDropRight (pyLower fp) 3 else pyLower fp).data ⊆ (pyLower fp).data := by
    split
    · intro x hx
      exact List.take_subset _ _ hx
    · exact fun x hx => hx
  have hnfix : ∀ c ∈ (if strEndsWith (pyLower fp) ".md" then
      strDropRight (pyLower fp) 3 else pyLower fp).data, pyLowerChar c = c :=
    fun c hc => pyLowerChar_fix_of_mem_lower (hsub hc)
  have hffix : ∀ c ∈ (pathName (if strEndsWith (pyLower fp) ".md" then
      strDropRight (pyLower fp) 3 else pyLower fp)).data, pyLowerChar c = c :=
    fun c hc => hnfix c (pathName_chars hc)
  refine ⟨?_, ?_, ?_⟩
  · intro k hk
    simp only [List.mem_cons, List.not_mem_nil, or_false] at hk
    have hlow : pyLower k = k := by
      rcases hk with rfl | rfl | rfl | rfl
      · exact pyLower_eq_self hnfix
      · exact pyLower_eq_self hffix
      · refine pyLower_eq_self ?_
        intro c hc
        rcases replaceChar_chars hc with rfl | hc2
        · decide
        · exact hffix c hc2
      · refine pyLower_eq_self ?_
        intro c hc
        rcases replaceChar_chars hc with rfl | hc2
        · decide
        · exact hffix c hc2
    refine ⟨?_, hlow⟩
    rcases hk with rfl | rfl | rfl | rfl
    · simp [registerFile, lookupStr_dictInsert]
    · simp [registerFile, lookupStr_dictInsert]
    · simp [registerFile, lookupStr_dictInsert]
    · simp [registerFile, lookupStr_dictInsert]
  · by_cases ht : t = ""
    · simp [resolve_link, ht]
    · rw [if_neg ht]
      unfold resolve_link resolveCascadeSpec
      rw [if_neg ht]
      dsimp only
      cases h1 : lookupStr nm (if strEndsWith (pyStrip (pyLower t)) ".md" then
          strDropRight (pyStrip (pyLower t)) 3 else pyStrip (pyLower t))
      · cases h2 : lookupStr nm (pathName (if strEndsWith (pyStrip (pyLower t))
            ".md" then strDropRight (pyStrip (pyLower t)) 3
            else pyStrip (pyLower t)))
        · cases h3 : lookupStr nm (replaceChar ' ' '_' (pathName
              (if strEndsWith (pyStrip (pyLower t)) ".md" then
                strDropRight (pyStrip (pyLower t)) 3 else pyStrip (pyLower t))))
          · cases h4 : lookupStr nm (replaceChar '_' ' ' (pathName
                (if strEndsWith (pyStrip (pyLower t)) ".md" then
                  strDropRight (pyStrip (pyLower t)) 3
                  else pyStrip (pyLower t)))) <;>
              simp [h1, h2, h3, h4, Option.orElse]
          · simp [h1, h2, h3, Option.orElse]
        · simp [h1, h2, Option.orElse]
      · simp [h1, Option.orElse]
  · simp [processLink, hdrop]

/-- Concrete instance of the C6 theorem: registration for the path
Dir/A B.md and the silent drop of the unresolvable target zzz against
the table built from notes/My File.md. -/
theorem name_table_resolution_witness :
    (∀ k ∈ [ (if strEndsWith (pyLower "Dir/A B.md") ".md" then
          strDropRight (pyLower "Dir/A B.md") 3 else pyLower "Dir/A B.md"),
        pathName (if strEndsWith (pyLower "Dir/A B.md") ".md" then
          strDropRight (pyLower "Dir/A B.md") 3 else pyLower "Dir/A B.md"),
        replaceChar ' ' '_'
          (pathName (if strEndsWith (pyLower "Dir/A B.md") ".md" then
            strDropRight (pyLower "Dir/A B.md") 3 else pyLower "Dir/A B.md")),
        replaceChar '_' ' '
          (pathName (if strEndsWith (pyLower "Dir/A B.md") ".md" then
            strDropRight (pyLower "Dir/A B.md") 3 else pyLower "Dir/A B.md"))],
      lookupStr (registerFile [] "Dir/A B.md") k = some "Dir/A B.md" ∧
        pyLower k = k) ∧
    resolve_link "my_file" (build_name_to_path_map ["notes/My File.md"]) =
      (if "my_file" = "" then none
       else resolveCascadeSpec "my_file"
         (build_name_to_path_map ["notes/My File.md"])) ∧
    processLink (build_name_to_path_map ["notes/My File.md"]) "Dir/A B.md"
      initIndex "zzz" = initIndex :=
  name_table_resolution [] (build_name_to_path_map ["notes/My File.md"])
    "Dir/A B.md" "my_file" "zzz" initIndex (by decide)
